import Mathlib

/-! Shallow embedding of the carmen-core gridstore coalesce engine
(`src/gridstore/coalesce.rs`) and of the Z-curve bbox filter
(`src/gridstore/spatial.rs`).

Modelling conventions:
* `f64` values (relevance, score-distance, weights) are modelled as exact
  rationals `ℚ`; the engine only adds, subtracts and compares them.
* `u16`/`u32` values are modelled as `Nat`, with an explicit `% 2 ^ 32`
  where the Rust code can wrap (the `tmp_id` packing).
* The grid store and `MatchOpts.adjust_to_zoom` live in files that are not
  part of the sources (`store.rs`, `common.rs`); following the spec, a
  subquery's store is modelled by the (already sorted) sequence of match
  entries that `get_matching` yields for it during the call.
* Rust panics (out-of-bounds indexing, violated `assert!`) are modelled by
  `Option`: `none` is a panic.
* The final sweep of `coalesce_multi` iterates a Rust `HashMap`, whose
  iteration order is not deterministic; the embedding takes that iteration
  order as an explicit `order` parameter (a list of keys).
-/

/-- Modelled from the spec (`common.rs` is not among the sources):
one feature at one tile coordinate. -/
structure GridEntry where
  id : Nat
  x : Nat
  y : Nat
  relev : ℚ
deriving DecidableEq, Repr

/-- Modelled from the spec: a `GridEntry` plus language/scoring metadata,
as yielded by the store. -/
structure MatchEntry where
  grid_entry : GridEntry
  matches_language : Bool
  distance : ℚ
  scoredist : ℚ
deriving DecidableEq, Repr

/-- Modelled from the spec: one phrase's lookup against one index.  The
`store` field is the sequence of match entries the backing store yields for
this subquery during the coalesce call (the store itself is external). -/
structure PhrasematchSubquery where
  store : List MatchEntry
  weight : ℚ
  idx : Nat
  zoom : Nat
  mask : Nat
deriving DecidableEq, Repr

/-- Modelled from the spec: match options.  Only `proximity.isNone` is read
by the embedded fragment; `zoom` and `bbox` are carried for fidelity. -/
structure MatchOpts where
  zoom : Nat
  proximity : Option (Nat × Nat × Nat)
  bbox : Option (Nat × Nat × Nat × Nat)
deriving DecidableEq, Repr

/-- A lifted entry (`CoalesceEntry` in `common.rs`).  The `zoom` field is a
ghost field recording the zoom of the subquery the entry was lifted from; it
is not present in the Rust struct and is read by no operation, it only lets
provenance invariants be stated. -/
structure CoalesceEntry where
  grid_entry : GridEntry
  matches_language : Bool
  idx : Nat
  tmp_id : Nat
  mask : Nat
  distance : ℚ
  scoredist : ℚ
  zoom : Nat
deriving DecidableEq, Repr

/-- One candidate answer: an ordered collection of entries. -/
structure CoalesceContext where
  entries : List CoalesceEntry
  mask : Nat
  relev : ℚ
deriving DecidableEq, Repr

/-- Modelled from the spec: bound on returned contexts (`common.rs`,
"typically 40"). -/
def MAX_CONTEXTS : Nat := 40

/-- The exact value of `f64::MAX`, the initial `min_scoredist`. -/
def f64MAX : ℚ := (2 ^ 53 - 1) * 2 ^ 971

/-- Placeholder entry used only to give `List.headD` a default where the
Rust code indexes `entries[0]`; every reachable context has nonempty
entries, so the default is never produced. -/
def noEntry : CoalesceEntry :=
  ⟨⟨0, 0, 0, 0⟩, false, 0, 0, 0, 0, 0, 0⟩

/-- The lead entry `entries[0]` of a context. -/
def leadE (c : CoalesceContext) : CoalesceEntry :=
  c.entries.headD noEntry

/-- Embeds `grid_to_coalesce_entry`: apply the subquery's weight and pack
`tmp_id = ((idx as u32) << 25) + id` (with the u32 wrap made explicit). -/
def gridToCoalesceEntry (grid : MatchEntry) (subquery : PhrasematchSubquery)
    (_match_opts : MatchOpts) : CoalesceEntry :=
  { grid_entry := { grid.grid_entry with relev := grid.grid_entry.relev * subquery.weight }
    matches_language := grid.matches_language
    idx := subquery.idx
    tmp_id := (subquery.idx <<< 25 + grid.grid_entry.id) % 2 ^ 32
    mask := subquery.mask
    distance := grid.distance
    scoredist := grid.scoredist
    zoom := subquery.zoom }

/-- Stable insertion into a list ordered by the strict comparator `lt`:
`x` is placed before the first element it is strictly less than, so equal
keys keep their original relative order, as Rust's stable `sort_by_key`. -/
def insertLt (lt : α → α → Bool) (x : α) : List α → List α
  | [] => [x]
  | y :: ys => if lt y x then y :: insertLt lt x ys else x :: y :: ys

/-- Stable sort by the strict comparator `lt` (insertion sort). -/
def sortLt (lt : α → α → Bool) : List α → List α
  | [] => []
  | x :: xs => insertLt lt x (sortLt lt xs)

/-- Embeds `Vec::dedup_by_key`: remove all but the first of each run of
consecutive elements sharing a key. -/
def dedupByKey (k : α → β) [DecidableEq β] : List α → List α
  | [] => []
  | [a] => [a]
  | a :: b :: rest =>
    if k b = k a then dedupByKey k (a :: rest) else a :: dedupByKey k (b :: rest)
termination_by l => l.length

/-- The sort key of `coalesce_single`, as a strict Bool comparator:
`(Reverse relev, Reverse scoredist, id, x, y)`. -/
def singleKeyLt (a b : CoalesceContext) : Bool :=
  if b.relev < a.relev then true
  else if a.relev < b.relev then false
  else if (leadE b).scoredist < (leadE a).scoredist then true
  else if (leadE a).scoredist < (leadE b).scoredist then false
  else if (leadE a).grid_entry.id < (leadE b).grid_entry.id then true
  else if (leadE b).grid_entry.id < (leadE a).grid_entry.id then false
  else if (leadE a).grid_entry.x < (leadE b).grid_entry.x then true
  else if (leadE b).grid_entry.x < (leadE a).grid_entry.x then false
  else decide ((leadE a).grid_entry.y < (leadE b).grid_entry.y)

/-- The sort key of `coalesce_multi`:
`(Reverse relev, Reverse scoredist, idx, id, x, y)`. -/
def multiKeyLt (a b : CoalesceContext) : Bool :=
  if b.relev < a.relev then true
  else if a.relev < b.relev then false
  else if (leadE b).scoredist < (leadE a).scoredist then true
  else if (leadE a).scoredist < (leadE b).scoredist then false
  else if (leadE a).idx < (leadE b).idx then true
  else if (leadE b).idx < (leadE a).idx then false
  else if (leadE a).grid_entry.id < (leadE b).grid_entry.id then true
  else if (leadE b).grid_entry.id < (leadE a).grid_entry.id then false
  else if (leadE a).grid_entry.x < (leadE b).grid_entry.x then true
  else if (leadE b).grid_entry.x < (leadE a).grid_entry.x then false
  else decide ((leadE a).grid_entry.y < (leadE b).grid_entry.y)

/-- The key `(zoom, idx)` by which `coalesce_multi` sorts the stack. -/
def subKeyLt (a b : PhrasematchSubquery) : Bool :=
  if a.zoom < b.zoom then true
  else if b.zoom < a.zoom then false
  else decide (a.idx < b.idx)

/-- Running state of the `coalesce_single` grid loop. -/
structure SingleScan where
  contexts : List CoalesceContext
  max_relev : ℚ
  last_id : Nat
  last_relev : ℚ
  last_scoredist : ℚ
  min_scoredist : ℚ
  feature_count : Nat

/-- Embeds the grid loop of `coalesce_single` (`continue` recurses with the
state unchanged, `break` returns the accumulated contexts). -/
def coalesceSingleLoop (subquery : PhrasematchSubquery) (match_opts : MatchOpts) :
    List MatchEntry → SingleScan → List CoalesceContext
  | [], st => st.contexts
  | grid :: rest, st =>
    let e := gridToCoalesceEntry grid subquery match_opts
    if st.last_id = e.grid_entry.id ∧ e.scoredist ≤ st.last_scoredist then
      coalesceSingleLoop subquery match_opts rest st
    else if 2 * MAX_CONTEXTS < st.feature_count ∧ e.scoredist < st.min_scoredist then
      coalesceSingleLoop subquery match_opts rest st
    else if 2 * MAX_CONTEXTS < st.feature_count ∧ e.grid_entry.relev < st.last_relev then
      st.contexts
    else if 1 / 4 ≤ st.max_relev - e.grid_entry.relev then
      st.contexts
    else
      let max2 := if st.max_relev < e.grid_entry.relev then e.grid_entry.relev else st.max_relev
      let contexts2 := st.contexts ++ [⟨[e], e.mask, e.grid_entry.relev⟩]
      let fc2 := if st.last_id ≠ e.grid_entry.id then st.feature_count + 1 else st.feature_count
      if match_opts.proximity = none ∧ 2 * MAX_CONTEXTS < fc2 then contexts2
      else
        let minsd2 := if e.scoredist < st.min_scoredist then e.scoredist else st.min_scoredist
        coalesceSingleLoop subquery match_opts rest
          ⟨contexts2, max2, e.grid_entry.id, e.grid_entry.relev, e.scoredist, minsd2, fc2⟩

/-- The initial state of the `coalesce_single` scan: empty output,
`last_id`, relevances and scoredists at 0, `min_scoredist` at `f64::MAX`. -/
def initScan : SingleScan := ⟨[], 0, 0, 0, 0, f64MAX, 0⟩

/-- Embeds `coalesce_single`: scan the store's stream, then sort,
deduplicate consecutive lead ids and truncate. -/
def coalesceSingle (subquery : PhrasematchSubquery) (match_opts : MatchOpts) :
    List CoalesceContext :=
  let contexts := coalesceSingleLoop subquery match_opts subquery.store initScan
  ((dedupByKey (fun c => (leadE c).grid_entry.id)
    (sortLt singleKeyLt contexts)).take MAX_CONTEXTS)

/-- The `coalesced` map of `coalesce_multi`, keyed by `(zoom, x, y)`;
modelled as an association list in insertion order (lookups are by key, and
the nondeterministic iteration order of the Rust `HashMap` is a separate
parameter of the sweep). -/
abbrev CMap : Type := List ((Nat × Nat × Nat) × List CoalesceContext)

/-- Key lookup in the `coalesced` map. -/
def mapLookup : CMap → Nat × Nat × Nat → Option (List CoalesceContext)
  | [], _ => none
  | (k2, v) :: rest, k => if k2 = k then some v else mapLookup rest k

/-- Append a context to a key's bucket, creating the bucket if missing. -/
def mapAppend : CMap → Nat × Nat × Nat → CoalesceContext → CMap
  | [], k, c => [(k, [c])]
  | (k2, v) :: rest, k, c =>
    if k2 = k then (k2, v ++ [c]) :: rest else (k2, v) :: mapAppend rest k c

/-- State of the parent join for the grid currently being processed. -/
structure JoinState where
  entries : List CoalesceEntry
  context_mask : Nat
  context_relev : ℚ
  prev_mask : Nat
  prev_relev : ℚ

/-- Embeds the body of the parent-entry loop of `coalesce_multi`: a parent
with the same mask as the previous one and a higher relevance replaces the
last entry; a parent whose mask is disjoint from the accumulated mask is
appended; anything else is skipped. -/
def joinEntry (st : JoinState) (pe : CoalesceEntry) : JoinState :=
  if pe.mask = st.prev_mask ∧ st.prev_relev < pe.grid_entry.relev then
    ⟨st.entries.dropLast ++ [pe], st.context_mask,
      st.context_relev - st.prev_relev + pe.grid_entry.relev,
      pe.mask, pe.grid_entry.relev⟩
  else if st.context_mask &&& pe.mask = 0 then
    ⟨st.entries ++ [pe], st.context_mask ||| pe.mask,
      st.context_relev + pe.grid_entry.relev,
      pe.mask, pe.grid_entry.relev⟩
  else st

/-- Embeds one compatible-zoom step of `coalesce_multi`: zoom the current
lead tile out to `other_zoom`, look the parent tile up, and fold all parent
entries of all its accumulated contexts (with `prev_mask`/`prev_relev`
reset for the lookup). -/
def joinZoom (coalesced : CMap) (zoom : Nat) (st : JoinState) (other_zoom : Nat) :
    JoinState :=
  let scale := 2 ^ (zoom - other_zoom)
  let h := st.entries.headD noEntry
  match mapLookup coalesced (other_zoom, h.grid_entry.x / scale, h.grid_entry.y / scale) with
  | none => st
  | some parents =>
    parents.foldl (fun s pc => pc.entries.foldl joinEntry s)
      ⟨st.entries, st.context_mask, st.context_relev, 0, 0⟩

/-- Running state of the `coalesce_multi` main loop. -/
structure MState where
  coalesced : CMap
  contexts : List CoalesceContext
  max_relev : ℚ

/-- The relevance penalties applied to a finished context of the last
subquery: `-0.01` for a context with no stacking, `-0.01` for a context in
ascending mask order. -/
def multiPenalty (entries : List CoalesceEntry) (relev : ℚ) : ℚ :=
  match entries with
  | [_] => relev - 1 / 100
  | e0 :: e1 :: _ => if e1.mask < e0.mask then relev - 1 / 100 else relev
  | [] => relev

/-- Embeds the compatible-zooms computation: zooms of subqueries with a
different index and a zoom not above this subquery's, with consecutive
duplicates removed (itertools `dedup`). -/
def compatibleZooms (stack : List PhrasematchSubquery) (subquery : PhrasematchSubquery) :
    List Nat :=
  dedupByKey (fun z => z)
    (stack.filterMap (fun b =>
      if subquery.idx = b.idx ∨ subquery.zoom < b.zoom then none else some b.zoom))

/-- Embeds the body of the grid loop of `coalesce_multi`: lift the grid,
join compatible parents, update `max_relev`, then either emit the context
(last subquery, within the relevance window) or push it into the
`coalesced` map (first subquery, or genuinely stacked). -/
def processGrid (subquery : PhrasematchSubquery) (match_opts : MatchOpts)
    (czooms : List Nat) (i n : Nat) (st : MState) (grid : MatchEntry) : MState :=
  let ce := gridToCoalesceEntry grid subquery match_opts
  let zxy : Nat × Nat × Nat := (subquery.zoom, grid.grid_entry.x, grid.grid_entry.y)
  let j := czooms.foldl (joinZoom st.coalesced subquery.zoom)
    ⟨[ce], ce.mask, ce.grid_entry.relev, 0, 0⟩
  let maxr := if st.max_relev < j.context_relev then j.context_relev else st.max_relev
  if i = n - 1 then
    let cr := multiPenalty j.entries j.context_relev
    if maxr - cr < 1 / 4 then
      ⟨st.coalesced, st.contexts ++ [⟨j.entries, j.context_mask, cr⟩], maxr⟩
    else
      ⟨st.coalesced, st.contexts, maxr⟩
  else if i = 0 ∨ 1 < j.entries.length then
    ⟨mapAppend st.coalesced zxy ⟨j.entries, j.context_mask, j.context_relev⟩,
      st.contexts, maxr⟩
  else
    ⟨st.coalesced, st.contexts, maxr⟩

/-- The main loop of `coalesce_multi` over the sorted stack, with `i` the
position of the current subquery and `n` the stack length; each subquery's
stream is truncated to `100_000` grids. -/
def multiGo (stackSorted : List PhrasematchSubquery) (match_opts : MatchOpts) (n : Nat) :
    Nat → List PhrasematchSubquery → MState → MState
  | _, [], st => st
  | i, subquery :: rest, st =>
    let czooms := compatibleZooms stackSorted subquery
    let st2 := (subquery.store.take 100000).foldl
      (processGrid subquery match_opts czooms i n) st
    multiGo stackSorted match_opts n (i + 1) rest st2

/-- Embeds the final sweep of the `coalesced` map: visit the buckets in the
(hash-map) iteration order `order` and keep every accumulated context still
inside the relevance window. -/
def sweepMap (order : List (Nat × Nat × Nat)) (st : MState) : List CoalesceContext :=
  order.flatMap (fun k =>
    ((mapLookup st.coalesced k).getD []).filter (fun c => st.max_relev - c.relev < 1 / 4))

/-- Embeds `coalesce_multi`.  `order` is the iteration order of the Rust
`HashMap` during the final sweep, which Rust does not determine. -/
def coalesceMulti (order : List (Nat × Nat × Nat)) (stack : List PhrasematchSubquery)
    (match_opts : MatchOpts) : List CoalesceContext :=
  let sorted := sortLt subKeyLt stack
  let st := multiGo sorted match_opts sorted.length 0 sorted ⟨[], [], 0⟩
  sortLt multiKeyLt (st.contexts ++ sweepMap order st)

/-- The loop of the top-level finalizer: stop at `MAX_CONTEXTS` or when the
relevance window closes, and keep only the first context per lead
`tmp_id`. -/
def finalizeLoop (relev_max : ℚ) : List CoalesceContext → List Nat →
    List CoalesceContext → List CoalesceContext
  | [], _, out => out
  | c :: rest, seen, out =>
    if MAX_CONTEXTS ≤ out.length then out
    else if 1 / 4 ≤ relev_max - c.relev then out
    else if (leadE c).tmp_id ∈ seen then finalizeLoop relev_max rest seen out
    else finalizeLoop relev_max rest ((leadE c).tmp_id :: seen) (out ++ [c])

/-- The top-level finalizer of `coalesce` (cap, window, lead dedup). -/
def finalize (contexts : List CoalesceContext) : List CoalesceContext :=
  match contexts with
  | [] => []
  | c :: _ => finalizeLoop c.relev contexts [] []

/-- Embeds the public `coalesce` entry point.  An empty stack indexes
`stack[0]` and panics (`none`); one subquery dispatches to the single-phrase
path, more to the multi-phrase path. -/
def coalesce (order : List (Nat × Nat × Nat)) (stack : List PhrasematchSubquery)
    (match_opts : MatchOpts) : Option (List CoalesceContext) :=
  match stack with
  | [] => none
  | [subquery] => some (finalize (coalesceSingle subquery match_opts))
  | _ => some (finalize (coalesceMulti order stack match_opts))

/-- One element of the flatbuffers `Coord` vector of `spatial.rs`: a Morton
coordinate and the feature ids stored at it. -/
structure Coord where
  coord : Nat
  ids : List Nat
deriving DecidableEq, Repr

/-- Modelled from the spec (the `morton` crate is not among the sources):
interleave the 16 bits of `x` into the even bit positions and the 16 bits
of `y` into the odd ones. -/
def interleaveMorton (x y : Nat) : Nat :=
  (List.range 16).foldl
    (fun acc i => acc ||| ((x >>> i &&& 1) <<< (2 * i)) ||| ((y >>> i &&& 1) <<< (2 * i + 1)))
    0

/-- Embeds the `while size > 1` loop of `bbox_binary_search`; returns the
final `base`, or `none` on an out-of-bounds vector access (a panic). -/
def bsLoop (coords : List Coord) (val : Nat) (base size : Nat) : Option Nat :=
  if 1 < size then
    let half := size / 2
    let mid := base + half
    match coords[mid]? with
    | none => none
    | some c => bsLoop coords val (if val < c.coord then base else mid) (size - half)
  else some base
termination_by size
decreasing_by exact Nat.sub_lt (by omega) (Nat.div_pos (by omega) (by omega))

/-- Embeds `bbox_binary_search`.  `none` is a panic: the entry assertion
`size >= offset` failing, or an out-of-bounds access. -/
def bboxBinarySearch (coords : List Coord) (val offset : Nat) : Option (Except Nat Nat) :=
  if coords.length < offset then none
  else if coords.length - offset = 0 then some (Except.error offset)
  else
    match bsLoop coords val offset (coords.length - offset) with
    | none => none
    | some base =>
      match coords[base]? with
      | none => none
      | some c =>
        if c.coord = val then some (Except.ok base)
        else some (Except.error (base + if c.coord < val then 1 else 0))

/-- Both `Ok(v)` and `Err(v)` unwrap to `v` in `bbox_filter`. -/
def exceptPos : Except Nat Nat → Nat
  | Except.ok v => v
  | Except.error v => v

/-- Embeds `bbox_filter`: two binary searches give the index range
`start..end`, which is then mapped over the vector. -/
def bboxFilter (coords : List Coord) (bbox : Nat × Nat × Nat × Nat) : Option (List Coord) :=
  let lo := interleaveMorton bbox.1 bbox.2.1
  let hi := interleaveMorton bbox.2.2.1 bbox.2.2.2
  match bboxBinarySearch coords lo 0 with
  | none => none
  | some s =>
    match bboxBinarySearch coords hi (exceptPos s) with
    | none => none
    | some e =>
      (List.range' (exceptPos s) (exceptPos e - exceptPos s)).mapM (fun i => coords[i]?)

/-- Match options used by the concrete runs below. -/
def demoOpts : MatchOpts := ⟨6, none, none⟩

/-- A store stream whose third grid repeats the feature id of the first:
relevance-sorted (1, 15/16, 7/8), so it satisfies the store contract. -/
def sqRepeat : PhrasematchSubquery :=
  ⟨[⟨⟨5, 1, 1, 1⟩, true, 0, 1⟩,
    ⟨⟨6, 2, 2, 15 / 16⟩, true, 0, 5⟩,
    ⟨⟨5, 3, 3, 7 / 8⟩, true, 0, 2⟩], 1, 3, 6, 1⟩

/-- A store stream all of whose grids have feature id 0 and non-positive
scoredist. -/
def sqZeros : PhrasematchSubquery :=
  ⟨[⟨⟨0, 0, 0, 1⟩, true, 0, 0⟩, ⟨⟨0, 1, 1, 1⟩, true, 0, -1⟩], 1, 2, 6, 1⟩

/-- Subquery at zoom 2, index 0, mask 1 (one grid at tile (0,0)). -/
def sqS2 : PhrasematchSubquery := ⟨[⟨⟨11, 0, 0, 1⟩, true, 0, 1⟩], 1, 0, 2, 1⟩

/-- Subquery at zoom 3, index 1 with the degenerate mask 0. -/
def sqB0 : PhrasematchSubquery := ⟨[⟨⟨12, 0, 0, 1⟩, true, 0, 1⟩], 1, 1, 3, 0⟩

/-- Subquery at zoom 4, index 1, mask 8. -/
def sqU4 : PhrasematchSubquery := ⟨[⟨⟨13, 0, 0, 1⟩, true, 0, 1⟩], 1, 1, 4, 8⟩

/-- Subquery at zoom 5, index 0, mask 4 (the last processed). -/
def sqV5 : PhrasematchSubquery := ⟨[⟨⟨14, 0, 0, 1⟩, true, 0, 1⟩], 1, 0, 5, 4⟩

/-- A stack on which the mask-0 parent of `sqB0` replaces the lead entry of
the last subquery's context. -/
def stackLead : List PhrasematchSubquery := [sqS2, sqB0, sqU4, sqV5]

/-- The keys of the `coalesced` map produced by `stackLead`. -/
def ordLead : List (Nat × Nat × Nat) := [(2, 0, 0), (3, 0, 0), (4, 0, 0)]

/-- Subquery at zoom 2, index 7, mask 4. -/
def sqA8 : PhrasematchSubquery := ⟨[⟨⟨21, 0, 0, 1⟩, true, 0, 1⟩], 1, 7, 2, 4⟩

/-- Subquery at zoom 3, index 0, mask 1, whose accumulated context ties the
full multi sort key with that of `sqD8`. -/
def sqC8s : PhrasematchSubquery := ⟨[⟨⟨5, 0, 0, 1 / 16⟩, true, 0, 3⟩], 1, 0, 3, 1⟩

/-- Subquery at zoom 4, index 0, mask 2, tying the key with `sqC8s`. -/
def sqD8 : PhrasematchSubquery := ⟨[⟨⟨5, 0, 0, 1 / 16⟩, true, 0, 3⟩], 1, 0, 4, 2⟩

/-- The last subquery of the tie stack: zoom 4, index 1, mask 8. -/
def sqB8 : PhrasematchSubquery := ⟨[⟨⟨22, 0, 0, 1 / 16⟩, true, 0, 9⟩], 1, 1, 4, 8⟩

/-- A stack whose `coalesced` map holds two contexts with identical full
sort keys but different entries. -/
def stackTie : List PhrasematchSubquery := [sqA8, sqC8s, sqD8, sqB8]

/-- One iteration order of the `coalesced` map of `stackTie`. -/
def ordTieA : List (Nat × Nat × Nat) := [(2, 0, 0), (3, 0, 0), (4, 0, 0)]

/-- The reversed iteration order of the same keys. -/
def ordTieB : List (Nat × Nat × Nat) := [(4, 0, 0), (3, 0, 0), (2, 0, 0)]

/-- The coord vector 0,1,2,3 of the reference test `coords_within_bbox`. -/
def demoCoords : List Coord := [⟨0, [0]⟩, ⟨1, [0]⟩, ⟨2, [0]⟩, ⟨3, [0]⟩]

/-- The bbox `[0,0,1,1]` of the reference test (morton range 0..3). -/
def demoBbox : Nat × Nat × Nat × Nat := (0, 0, 1, 1)

/-- Pairwise disjointness of the token masks of a list of entries. -/
def MaskDisjoint (l : List CoalesceEntry) : Prop :=
  l.Pairwise (fun a b => a.mask &&& b.mask = 0)

/-- Invariant of the parent-join state: the entries are pairwise
mask-disjoint, every entry's mask is below the accumulated context mask,
the previous parent's mask is below the context mask, and when the
previous parent's mask is nonzero it is the mask of the last entry. -/
def JoinInv (st : JoinState) : Prop :=
  MaskDisjoint st.entries ∧
  (∀ e ∈ st.entries, e.mask &&& st.context_mask = e.mask) ∧
  st.prev_mask &&& st.context_mask = st.prev_mask ∧
  (st.prev_mask ≠ 0 → ∃ pre lst, st.entries = pre ++ [lst] ∧ lst.mask = st.prev_mask)

/-- A context whose entries are pairwise mask-disjoint. -/
def CtxDisj (c : CoalesceContext) : Prop := MaskDisjoint c.entries

/-- Every accumulated context of every bucket of the map satisfies `P`. -/
def MapAll (P : CoalesceContext → Prop) (m : CMap) : Prop :=
  ∀ p ∈ m, ∀ c ∈ p.2, P c

/-- Every context of the multi state (output buffer and map) satisfies `P`. -/
def StateAll (P : CoalesceContext → Prop) (st : MState) : Prop :=
  (∀ c ∈ st.contexts, P c) ∧ MapAll P st.coalesced

/-- Every entry of a context satisfies `Q`. -/
def EntriesAll (Q : CoalesceEntry → Prop) (c : CoalesceContext) : Prop :=
  ∀ e ∈ c.entries, Q e

/-- Invariant of the parent-join state relative to the lifted lead entry
`e0`: the head is still `e0`, every entry is from a zoom at most `e0`'s
with a nonzero mask, and a nonzero previous-parent mask forces at least two
entries (so a replacement can never pop the lead). -/
def LeadInv (e0 : CoalesceEntry) (st : JoinState) : Prop :=
  st.entries.head? = some e0 ∧
  (∀ e ∈ st.entries, e.zoom ≤ e0.zoom ∧ e.mask ≠ 0) ∧
  (st.prev_mask ≠ 0 → 2 ≤ st.entries.length)

/-- A nonempty context whose entries all come from zooms at most the lead
entry's zoom. -/
def HeadDeepest (c : CoalesceContext) : Prop :=
  c.entries ≠ [] ∧ ∀ e ∈ c.entries, e.zoom ≤ (leadE c).zoom

/-- Map invariant for the zoom claim: every context of the bucket keyed by
`(z, x, y)` is nonempty, has a lead entry lifted at zoom `z`, and all its
entries have nonzero masks and zooms at most `z`. -/
def MapZoom (m : CMap) : Prop :=
  ∀ p ∈ m, ∀ c ∈ p.2,
    c.entries ≠ [] ∧ (leadE c).zoom = p.1.1 ∧
    ∀ e ∈ c.entries, e.mask ≠ 0 ∧ e.zoom ≤ p.1.1

/-- State invariant for the zoom claim. -/
def StateZoom (st : MState) : Prop :=
  (∀ c ∈ st.contexts, HeadDeepest c) ∧ MapZoom st.coalesced

/-- The coord vector is stored in strictly ascending coord order (each
Morton coordinate appears once, with its id list). -/
def CoordSorted (coords : List Coord) : Prop :=
  coords.Pairwise (fun a b => a.coord < b.coord)

/-- The number of stored coords strictly below `val`; for a sorted vector
this is the first index whose coord is at least `val` (or the length). -/
def coordLowerCount (coords : List Coord) (val : Nat) : Nat :=
  coords.countP (fun c => decide (c.coord < val))

theorem insertLt_perm (lt : α → α → Bool) (x : α) :
    ∀ l : List α, (insertLt lt x l).Perm (x :: l)
  | [] => List.Perm.refl _
  | y :: ys => by
    rw [insertLt]
    split
    · exact ((insertLt_perm lt x ys).cons y).trans (List.Perm.swap x y ys)
    · exact List.Perm.refl _

theorem sortLt_perm (lt : α → α → Bool) : ∀ l : List α, (sortLt lt l).Perm l
  | [] => List.Perm.refl _
  | x :: xs => (insertLt_perm lt x (sortLt lt xs)).trans ((sortLt_perm lt xs).cons x)

theorem mem_sortLt {lt : α → α → Bool} {l : List α} {a : α} (h : a ∈ sortLt lt l) :
    a ∈ l :=
  (sortLt_perm lt l).subset h

theorem dedupByKey_sublist (k : α → β) [DecidableEq β] (l : List α) :
    (dedupByKey k l).Sublist l := by
  have H : ∀ n (l : List α), l.length ≤ n → (dedupByKey k l).Sublist l := by
    intro n
    induction n with
    | zero =>
      intro l hl
      have hnil : l = [] := List.eq_nil_of_length_eq_zero (Nat.le_zero.mp hl)
      subst hnil
      simp [dedupByKey]
    | succ n ih =>
      intro l hl
      match l with
      | [] => simp [dedupByKey]
      | [a] => simp [dedupByKey]
      | a :: b :: rest =>
        rw [dedupByKey]
        split
        · refine (ih (a :: rest) ?_).trans ?_
          · simp at hl ⊢; omega
          · exact List.Sublist.cons₂ a (List.sublist_cons_self b rest)
        · exact List.Sublist.cons₂ a (ih (b :: rest) (by simp at hl ⊢; omega))
  exact H l.length l (Nat.le_refl _)

theorem dedupByKey_cons (k : α → β) [DecidableEq β] (a : α) (l : List α) :
    ∃ t, dedupByKey k (a :: l) = a :: t := by
  have H : ∀ n (a : α) (l : List α), l.length ≤ n →
      ∃ t, dedupByKey k (a :: l) = a :: t := by
    intro n
    induction n with
    | zero =>
      intro a l hl
      have hnil : l = [] := List.eq_nil_of_length_eq_zero (Nat.le_zero.mp hl)
      subst hnil
      exact ⟨[], by simp [dedupByKey]⟩
    | succ n ih =>
      intro a l hl
      match l with
      | [] => exact ⟨[], by simp [dedupByKey]⟩
      | b :: rest =>
        rw [dedupByKey]
        split
        · exact ih a rest (by simp at hl; omega)
        · exact ⟨dedupByKey k (b :: rest), rfl⟩
  exact H l.length a l (Nat.le_refl _)

theorem dedupByKey_chain (k : α → β) [DecidableEq β] (l : List α) :
    (dedupByKey k l).Chain' (fun x y => k x ≠ k y) := by
  have H : ∀ n (l : List α), l.length ≤ n →
      (dedupByKey k l).Chain' (fun x y => k x ≠ k y) := by
    intro n
    induction n with
    | zero =>
      intro l hl
      have hnil : l = [] := List.eq_nil_of_length_eq_zero (Nat.le_zero.mp hl)
      subst hnil
      simp [dedupByKey]
    | succ n ih =>
      intro l hl
      match l with
      | [] => simp [dedupByKey]
      | [a] => simp [dedupByKey]
      | a :: b :: rest =>
        rw [dedupByKey]
        split
        · exact ih (a :: rest) (by simp at hl ⊢; omega)
        · rename_i hne
          obtain ⟨t, ht⟩ := dedupByKey_cons k b rest
          rw [ht]
          have htail : (dedupByKey k (b :: rest)).Chain' (fun x y => k x ≠ k y) :=
            ih (b :: rest) (by simp at hl ⊢; omega)
          rw [ht] at htail
          exact List.Chain'.cons (fun hab => hne hab.symm) htail
  exact H l.length l (Nat.le_refl _)

theorem finalizeLoop_length (relev_max : ℚ) :
    ∀ (l : List CoalesceContext) (seen : List Nat) (out : List CoalesceContext),
      out.length ≤ MAX_CONTEXTS → (finalizeLoop relev_max l seen out).length ≤ MAX_CONTEXTS
  | [], _, _, h => h
  | c :: rest, seen, out, h => by
    rw [finalizeLoop]
    split
    · exact h
    · split
      · exact h
      · split
        · exact finalizeLoop_length relev_max rest seen out h
        · refine finalizeLoop_length relev_max rest _ _ ?_
          rename_i hlt _
          simp only [List.length_append, List.length_cons, List.length_nil]
          omega

theorem finalizeLoop_mem (relev_max : ℚ) :
    ∀ (l : List CoalesceContext) (seen : List Nat) (out : List CoalesceContext)
      (c : CoalesceContext), c ∈ finalizeLoop relev_max l seen out → c ∈ out ∨ c ∈ l
  | [], _, _, _, h => Or.inl h
  | d :: rest, seen, out, c, h => by
    rw [finalizeLoop] at h
    split at h
    · exact Or.inl h
    · split at h
      · exact Or.inl h
      · split at h
        · rcases finalizeLoop_mem relev_max rest seen out c h with h1 | h1
          · exact Or.inl h1
          · exact Or.inr (List.mem_cons_of_mem d h1)
        · rcases finalizeLoop_mem relev_max rest _ _ c h with h1 | h1
          · rcases List.mem_append.mp h1 with h2 | h2
            · exact Or.inl h2
            · exact Or.inr (List.mem_cons.mpr (Or.inl (List.mem_singleton.mp h2)))
          · exact Or.inr (List.mem_cons_of_mem d h1)

theorem finalize_length (contexts : List CoalesceContext) :
    (finalize contexts).length ≤ MAX_CONTEXTS := by
  rw [finalize.eq_def]
  match contexts with
  | [] => simp [MAX_CONTEXTS]
  | c :: rest => exact finalizeLoop_length c.relev (c :: rest) [] [] (by simp [MAX_CONTEXTS])

theorem finalize_mem {contexts : List CoalesceContext} {c : CoalesceContext}
    (h : c ∈ finalize contexts) : c ∈ contexts := by
  rw [finalize.eq_def] at h
  match contexts with
  | [] => exact absurd h (List.not_mem_nil c)
  | d :: rest =>
    rcases finalizeLoop_mem d.relev (d :: rest) [] [] c h with h1 | h1
    · exact absurd h1 (List.not_mem_nil c)
    · exact h1

theorem singleLoop_skip (subquery : PhrasematchSubquery) (match_opts : MatchOpts)
    (g : MatchEntry) (rest : List MatchEntry) (h1 : g.grid_entry.id = 0)
    (h2 : g.scoredist ≤ 0) :
    coalesceSingleLoop subquery match_opts (g :: rest) initScan =
      coalesceSingleLoop subquery match_opts rest initScan := by
  rw [coalesceSingleLoop]
  simp only [initScan]
  split
  · rfl
  · rename_i hc
    exact absurd ⟨by simp [gridToCoalesceEntry, h1], by simpa [gridToCoalesceEntry] using h2⟩ hc

theorem singleLoop_all_zero (subquery : PhrasematchSubquery) (match_opts : MatchOpts) :
    ∀ l : List MatchEntry, (∀ g ∈ l, g.grid_entry.id = 0 ∧ g.scoredist ≤ 0) →
      coalesceSingleLoop subquery match_opts l initScan = []
  | [], _ => rfl
  | g :: rest, h => by
    rw [singleLoop_skip subquery match_opts g rest (h g (List.mem_cons_self g rest)).1
      (h g (List.mem_cons_self g rest)).2]
    exact singleLoop_all_zero subquery match_opts rest
      (fun g2 hg2 => h g2 (List.mem_cons_of_mem g hg2))

/-- C6: the claim says an empty stack returns an empty result; the code
instead indexes `stack[0]`, which panics on an empty vector, so no result
is returned at all. -/
theorem claim_C6_empty_stack_counterexample :
    ¬ (coalesce [] [] demoOpts = some []) := by decide!

/-- C6 (amended): calling `coalesce` with an empty stack is a programmer
error; the `stack[0]` index panics (modelled by `none`) and no result, empty
or otherwise, is returned. -/
theorem claim_C6_empty_stack_panics :
    ∀ (order : List (Nat × Nat × Nat)) (match_opts : MatchOpts),
      coalesce order [] match_opts = none :=
  fun _ _ => rfl

/-- C3: for every non-empty stack and match options (and any hash-map
iteration order), the sequence returned by `coalesce` has at most
`MAX_CONTEXTS` contexts. -/
theorem claim_C3_output_capped :
    ∀ (order : List (Nat × Nat × Nat)) (stack : List PhrasematchSubquery)
      (match_opts : MatchOpts) (out : List CoalesceContext),
      stack ≠ [] → coalesce order stack match_opts = some out →
      out.length ≤ MAX_CONTEXTS := by
  intro order stack match_opts out hne h
  match stack with
  | [] => exact absurd rfl hne
  | [subquery] =>
    rw [coalesce] at h
    rw [← Option.some.inj h]
    exact finalize_length _
  | a :: b :: rest =>
    rw [coalesce] at h
    · rw [← Option.some.inj h]
      exact finalize_length _
    · simp
    · simp

/-- Witness for C3 at a concrete one-subquery stack. -/
theorem claim_C3_output_capped_witness :
    ([sqZeros] ≠ ([] : List PhrasematchSubquery)) ∧
      coalesce [] [sqZeros] demoOpts = some [] ∧
      ([] : List CoalesceContext).length ≤ MAX_CONTEXTS :=
  ⟨by decide, by decide!,
    claim_C3_output_capped [] [sqZeros] demoOpts [] (by decide) (by decide!)⟩

/-- C9: the previous-entry trackers start at `last_id = 0` and
`last_scoredist = 0`, so the first grid is dropped by the same-feature
dedup whenever its id is 0 and its scoredist is at most 0; a store yielding
only such grids makes `coalesce_single` return an empty result. -/
theorem claim_C9_zero_id_initial_skip :
    (∀ (subquery : PhrasematchSubquery) (match_opts : MatchOpts) (g : MatchEntry)
        (rest : List MatchEntry), g.grid_entry.id = 0 → g.scoredist ≤ 0 →
        coalesceSingleLoop subquery match_opts (g :: rest) initScan =
          coalesceSingleLoop subquery match_opts rest initScan) ∧
    (∀ (subquery : PhrasematchSubquery) (match_opts : MatchOpts),
        (∀ g ∈ subquery.store, g.grid_entry.id = 0 ∧ g.scoredist ≤ 0) →
        coalesceSingle subquery match_opts = []) := by
  constructor
  · exact singleLoop_skip
  · intro subquery match_opts h
    simp only [coalesceSingle, singleLoop_all_zero subquery match_opts subquery.store h]
    simp [sortLt, dedupByKey]

/-- Witness for C9 at a concrete store of id-0, scoredist-0 grids. -/
theorem claim_C9_zero_id_initial_skip_witness :
    (∀ g ∈ sqZeros.store, g.grid_entry.id = 0 ∧ g.scoredist ≤ 0) ∧
      coalesceSingle sqZeros demoOpts = [] :=
  ⟨by decide!, claim_C9_zero_id_initial_skip.2 sqZeros demoOpts (by decide!)⟩

/-- C5: the claim says no two contexts of the single-phrase result share a
lead feature id; but `dedup_by_key` removes only consecutive duplicates,
and on a store yielding ids 5, 6, 5 (relevance-sorted) the two id-5
contexts are not adjacent after sorting and both survive. -/
theorem claim_C5_counterexample :
    ¬ ((coalesceSingle sqRepeat demoOpts).map
        (fun c => (leadE c).grid_entry.id)).Nodup := by decide!

/-- C5 (amended): after sorting, the dedup removes only consecutive
duplicates: no two adjacent contexts of the single-phrase result share the
same lead feature id (the first, hence best-sorted, of each run is kept);
lead ids may still repeat non-adjacently. -/
theorem claim_C5_adjacent_dedup :
    ∀ (subquery : PhrasematchSubquery) (match_opts : MatchOpts),
      (coalesceSingle subquery match_opts).Chain'
        (fun a b => (leadE a).grid_entry.id ≠ (leadE b).grid_entry.id) := by
  intro subquery match_opts
  simp only [coalesceSingle]
  exact (dedupByKey_chain _ _).take MAX_CONTEXTS

/-- C8: the claim says two runs of `coalesce` agree, including on the order
of full-sort-key ties; but the final sweep iterates a `HashMap` whose order
Rust does not fix, and on `stackTie` two accumulated contexts tie on the
full key `(relev, scoredist, idx, id, x, y)` while differing in masks and
entries, so two iteration orders of the same buckets give different
outputs. -/
theorem claim_C8_counterexample :
    coalesce ordTieA stackTie demoOpts ≠ coalesce ordTieB stackTie demoOpts := by decide!

/-- C8 (amended): `coalesce` is deterministic once the hash-map iteration
order is fixed (the model is a function of it), and across any two
iteration orders that are permutations of each other the multi-phrase
output is the same up to permutation; only the relative order of full-key
ties can change. -/
theorem claim_C8_deterministic_up_to_order :
    ∀ (o1 o2 : List (Nat × Nat × Nat)) (stack : List PhrasematchSubquery)
      (match_opts : MatchOpts), o1.Perm o2 →
      (coalesceMulti o1 stack match_opts).Perm (coalesceMulti o2 stack match_opts) := by
  intro o1 o2 stack match_opts h
  simp only [coalesceMulti, sweepMap]
  refine (sortLt_perm _ _).trans (List.Perm.trans ?_ (sortLt_perm _ _).symm)
  exact List.Perm.append_left _ (h.flatMap_right _)

/-- Witness for the amended C8 at the concrete tie stack. -/
theorem claim_C8_deterministic_up_to_order_witness :
    ordTieA.Perm ordTieB ∧
      (coalesceMulti ordTieA stackTie demoOpts).Perm
        (coalesceMulti ordTieB stackTie demoOpts) :=
  ⟨by decide, claim_C8_deterministic_up_to_order ordTieA ordTieB stackTie demoOpts (by decide)⟩

theorem joinEntry_inv {st : JoinState} (h : JoinInv st) (pe : CoalesceEntry) :
    JoinInv (joinEntry st pe) := by
  obtain ⟨hdisj, hsub, hprev, hlast⟩ := h
  rw [joinEntry]
  split
  · rename_i hc
    obtain ⟨hmask, -⟩ := hc
    by_cases hz : st.prev_mask = 0
    · have hpz : pe.mask = 0 := hmask.trans hz
      refine ⟨?_, ?_, ?_, ?_⟩
      · apply List.pairwise_append.mpr
        refine ⟨hdisj.sublist (List.dropLast_sublist _), List.pairwise_singleton _ _, ?_⟩
        intro a _ b hb
        rw [List.mem_singleton.mp hb, hpz, Nat.and_zero]
      · intro e he
        rcases List.mem_append.mp he with h1 | h1
        · exact hsub e ((List.dropLast_sublist _).subset h1)
        · rw [List.mem_singleton.mp h1, hpz]
          exact Nat.zero_and _
      · rw [hpz]
        exact Nat.zero_and _
      · intro hne
        exact absurd hpz hne
    · obtain ⟨pre, lst, hsplit, hlm⟩ := hlast hz
      have hdl : st.entries.dropLast ++ [pe] = pre ++ [pe] := by
        rw [hsplit, List.dropLast_concat]
      rw [hdl]
      have hdisj2 := hsplit ▸ hdisj
      obtain ⟨hpre, -, hcross⟩ := List.pairwise_append.mp hdisj2
      refine ⟨?_, ?_, ?_, ?_⟩
      · apply List.pairwise_append.mpr
        refine ⟨hpre, List.pairwise_singleton _ _, ?_⟩
        intro a ha b hb
        rw [List.mem_singleton.mp hb, hmask, ← hlm]
        exact hcross a ha lst (List.mem_singleton_self lst)
      · intro e he
        rcases List.mem_append.mp he with h1 | h1
        · exact hsub e (by rw [hsplit]; exact List.mem_append.mpr (Or.inl h1))
        · rw [List.mem_singleton.mp h1, hmask]
          exact hprev
      · rw [hmask]
        exact hprev
      · intro _
        exact ⟨pre, pe, rfl, rfl⟩
  · split
    · rename_i hc2
      have hpe0 : ∀ a ∈ st.entries, a.mask &&& pe.mask = 0 := by
        intro a ha
        calc a.mask &&& pe.mask
            = a.mask &&& st.context_mask &&& pe.mask := by rw [hsub a ha]
          _ = a.mask &&& (st.context_mask &&& pe.mask) := Nat.land_assoc _ _ _
          _ = a.mask &&& 0 := by rw [hc2]
          _ = 0 := Nat.and_zero _
      have hnewsub : pe.mask &&& (st.context_mask ||| pe.mask) = pe.mask := by
        rw [Nat.and_or_distrib_left, Nat.land_comm pe.mask st.context_mask, hc2,
          Nat.and_self, Nat.zero_or]
      refine ⟨?_, ?_, ?_, ?_⟩
      · apply List.pairwise_append.mpr
        refine ⟨hdisj, List.pairwise_singleton _ _, ?_⟩
        intro a ha b hb
        rw [List.mem_singleton.mp hb]
        exact hpe0 a ha
      · intro e he
        rcases List.mem_append.mp he with h1 | h1
        · rw [Nat.and_or_distrib_left, hsub e h1, hpe0 e h1, Nat.or_zero]
        · rw [List.mem_singleton.mp h1]
          exact hnewsub
      · exact hnewsub
      · intro _
        exact ⟨st.entries, pe, rfl, rfl⟩
    · exact ⟨hdisj, hsub, hprev, hlast⟩

theorem foldl_joinEntry_inv :
    ∀ (l : List CoalesceEntry) {st : JoinState}, JoinInv st →
      JoinInv (l.foldl joinEntry st)
  | [], _, h => h
  | pe :: rest, _, h => foldl_joinEntry_inv rest (joinEntry_inv h pe)

theorem foldl_ctxs_inv :
    ∀ (cs : List CoalesceContext) {st : JoinState}, JoinInv st →
      JoinInv (cs.foldl (fun s pc => pc.entries.foldl joinEntry s) st)
  | [], _, h => h
  | pc :: rest, _, h => foldl_ctxs_inv rest (foldl_joinEntry_inv pc.entries h)

theorem joinZoom_inv {m : CMap} {z : Nat} {st : JoinState} {oz : Nat}
    (h : JoinInv st) : JoinInv (joinZoom m z st oz) := by
  rw [joinZoom]
  split
  · exact h
  · exact foldl_ctxs_inv _ ⟨h.1, h.2.1, Nat.zero_and _, fun hne => absurd rfl hne⟩

theorem foldl_joinZoom_inv {m : CMap} {z : Nat} :
    ∀ (zs : List Nat) {st : JoinState}, JoinInv st →
      JoinInv (zs.foldl (joinZoom m z) st)
  | [], _, h => h
  | _ :: rest, _, h => foldl_joinZoom_inv rest (joinZoom_inv h)

theorem mapAppend_all {P : CoalesceContext → Prop} :
    ∀ {m : CMap} {k : Nat × Nat × Nat} {c : CoalesceContext},
      MapAll P m → P c → MapAll P (mapAppend m k c)
  | [], k, c, _, hc => by
    intro p hp c2 hc2
    rw [mapAppend] at hp
    rw [List.mem_singleton.mp hp] at hc2
    rw [List.mem_singleton.mp hc2]
    exact hc
  | (k2, v) :: rest, k, c, hm, hc => by
    intro p hp c2 hc2
    rw [mapAppend] at hp
    split at hp
    · rcases List.mem_cons.mp hp with h1 | h1
      · subst h1
        rcases List.mem_append.mp hc2 with h2 | h2
        · exact hm (k2, v) (List.mem_cons_self _ _) c2 h2
        · rw [List.mem_singleton.mp h2]
          exact hc
      · exact hm p (List.mem_cons_of_mem _ h1) c2 hc2
    · rcases List.mem_cons.mp hp with h1 | h1
      · subst h1
        exact hm (k2, v) (List.mem_cons_self _ _) c2 hc2
      · exact mapAppend_all (fun q hq => hm q (List.mem_cons_of_mem _ hq)) hc p h1 c2 hc2

theorem mapLookup_mem :
    ∀ {m : CMap} {k : Nat × Nat × Nat} {cs : List CoalesceContext},
      mapLookup m k = some cs → (k, cs) ∈ m
  | [], _, _, h => by rw [mapLookup] at h; exact absurd h (Option.noConfusion)
  | (k2, v) :: rest, k, cs, h => by
    rw [mapLookup] at h
    split at h
    · rename_i heq
      rw [← heq, Option.some.inj h]
      exact List.mem_cons_self _ _
    · exact List.mem_cons_of_mem _ (mapLookup_mem h)

theorem mapLookup_all {P : CoalesceContext → Prop} {m : CMap} {k : Nat × Nat × Nat}
    {cs : List CoalesceContext} (hm : MapAll P m) (h : mapLookup m k = some cs) :
    ∀ c ∈ cs, P c :=
  hm (k, cs) (mapLookup_mem h)

theorem processGrid_disj {subquery : PhrasematchSubquery} {match_opts : MatchOpts}
    {czooms : List Nat} {i n : Nat} {st : MState} {grid : MatchEntry}
    (h : StateAll CtxDisj st) :
    StateAll CtxDisj (processGrid subquery match_opts czooms i n st grid) := by
  have hj : JoinInv ((czooms.foldl (joinZoom st.coalesced subquery.zoom)
      ⟨[gridToCoalesceEntry grid subquery match_opts],
        (gridToCoalesceEntry grid subquery match_opts).mask,
        (gridToCoalesceEntry grid subquery match_opts).grid_entry.relev, 0, 0⟩)) := by
    apply foldl_joinZoom_inv
    refine ⟨List.pairwise_singleton _ _, ?_, Nat.zero_and _, fun hne => absurd rfl hne⟩
    intro e he
    rw [List.mem_singleton.mp he]
    exact Nat.and_self _
  simp only [processGrid]
  split <;> repeat' split
  all_goals first
    | exact ⟨h.1, h.2⟩
    | exact ⟨h.1, mapAppend_all h.2 hj.1⟩
    | (refine ⟨fun c hc => ?_, h.2⟩
       rcases List.mem_append.mp hc with h1 | h1
       · exact h.1 c h1
       · rw [List.mem_singleton.mp h1]
         exact hj.1)

theorem foldl_processGrid_disj {subquery : PhrasematchSubquery} {match_opts : MatchOpts}
    {czooms : List Nat} {i n : Nat} :
    ∀ (grids : List MatchEntry) {st : MState}, StateAll CtxDisj st →
      StateAll CtxDisj (grids.foldl (processGrid subquery match_opts czooms i n) st)
  | [], _, h => h
  | _ :: rest, _, h => foldl_processGrid_disj rest (processGrid_disj h)

theorem multiGo_disj (stackSorted : List PhrasematchSubquery) (match_opts : MatchOpts)
    (n : Nat) :
    ∀ (i : Nat) (rest : List PhrasematchSubquery) (st : MState), StateAll CtxDisj st →
      StateAll CtxDisj (multiGo stackSorted match_opts n i rest st)
  | _, [], _, h => h
  | i, _ :: rest, _, h =>
    multiGo_disj stackSorted match_opts n (i + 1) rest _ (foldl_processGrid_disj _ h)

/-- C1: within every context returned by multi-phrase coalesce, the token
masks of the entries are pairwise disjoint. -/
theorem claim_C1_multi_masks_disjoint :
    ∀ (order : List (Nat × Nat × Nat)) (stack : List PhrasematchSubquery)
      (match_opts : MatchOpts) (c : CoalesceContext),
      c ∈ coalesceMulti order stack match_opts →
      c.entries.Pairwise (fun a b => a.mask &&& b.mask = 0) := by
  intro order stack match_opts c hc
  simp only [coalesceMulti] at hc
  have hst : StateAll CtxDisj
      (multiGo (sortLt subKeyLt stack) match_opts (sortLt subKeyLt stack).length 0
        (sortLt subKeyLt stack) ⟨[], [], 0⟩) := by
    apply multiGo_disj
    exact ⟨fun c hc => absurd hc (List.not_mem_nil c),
      fun p hp => absurd hp (List.not_mem_nil p)⟩
  rcases List.mem_append.mp (mem_sortLt hc) with h1 | h1
  · exact hst.1 c h1
  · simp only [sweepMap] at h1
    obtain ⟨k, _, hcf⟩ := List.mem_flatMap.mp h1
    have hmem := (List.mem_filter.mp hcf).1
    rcases hlk : mapLookup (multiGo (sortLt subKeyLt stack) match_opts
        (sortLt subKeyLt stack).length 0 (sortLt subKeyLt stack) ⟨[], [], 0⟩).coalesced k with
      _ | cs
    · rw [hlk] at hmem
      exact absurd hmem (List.not_mem_nil c)
    · rw [hlk] at hmem
      exact mapLookup_all hst.2 hlk c hmem

/-- Witness for C1 at the first context of a concrete multi-phrase run. -/
theorem claim_C1_multi_masks_disjoint_witness :
    ((coalesceMulti ordTieA stackTie demoOpts).headD ⟨[], 0, 0⟩) ∈
        coalesceMulti ordTieA stackTie demoOpts ∧
      ((coalesceMulti ordTieA stackTie demoOpts).headD ⟨[], 0, 0⟩).entries.Pairwise
        (fun a b => a.mask &&& b.mask = 0) :=
  ⟨by decide!, claim_C1_multi_masks_disjoint ordTieA stackTie demoOpts _ (by decide!)⟩

theorem joinEntry_entries {Q : CoalesceEntry → Prop} {st : JoinState}
    {pe : CoalesceEntry} (h : ∀ e ∈ st.entries, Q e) (hpe : Q pe) :
    ∀ e ∈ (joinEntry st pe).entries, Q e := by
  rw [joinEntry]
  split
  · intro e he
    rcases List.mem_append.mp he with h1 | h1
    · exact h e ((List.dropLast_sublist _).subset h1)
    · rw [List.mem_singleton.mp h1]
      exact hpe
  · split
    · intro e he
      rcases List.mem_append.mp he with h1 | h1
      · exact h e h1
      · rw [List.mem_singleton.mp h1]
        exact hpe
    · exact h

theorem foldl_joinEntry_entries {Q : CoalesceEntry → Prop} :
    ∀ (l : List CoalesceEntry), (∀ pe ∈ l, Q pe) → ∀ {st : JoinState},
      (∀ e ∈ st.entries, Q e) → ∀ e ∈ (l.foldl joinEntry st).entries, Q e
  | [], _, _, h => h
  | pe :: rest, hl, _, h =>
    foldl_joinEntry_entries rest (fun x hx => hl x (List.mem_cons_of_mem pe hx))
      (joinEntry_entries h (hl pe (List.mem_cons_self pe rest)))

theorem foldl_ctxs_entries {Q : CoalesceEntry → Prop} :
    ∀ (cs : List CoalesceContext), (∀ c ∈ cs, ∀ pe ∈ c.entries, Q pe) →
      ∀ {st : JoinState}, (∀ e ∈ st.entries, Q e) →
      ∀ e ∈ (cs.foldl (fun s pc => pc.entries.foldl joinEntry s) st).entries, Q e
  | [], _, _, h => h
  | pc :: rest, hcs, _, h =>
    foldl_ctxs_entries rest (fun c hc => hcs c (List.mem_cons_of_mem pc hc))
      (foldl_joinEntry_entries pc.entries (hcs pc (List.mem_cons_self pc rest)) h)

theorem joinZoom_entries {Q : CoalesceEntry → Prop} {m : CMap} {z : Nat}
    {st : JoinState} {oz : Nat} (hm : MapAll (EntriesAll Q) m)
    (h : ∀ e ∈ st.entries, Q e) : ∀ e ∈ (joinZoom m z st oz).entries, Q e := by
  rw [joinZoom]
  split
  · exact h
  · rename_i cs heq
    exact foldl_ctxs_entries cs (mapLookup_all hm heq) h

theorem foldl_joinZoom_entries {Q : CoalesceEntry → Prop} {m : CMap} {z : Nat}
    (hm : MapAll (EntriesAll Q) m) :
    ∀ (zs : List Nat) {st : JoinState}, (∀ e ∈ st.entries, Q e) →
      ∀ e ∈ (zs.foldl (joinZoom m z) st).entries, Q e
  | [], _, h => h
  | _ :: rest, _, h => foldl_joinZoom_entries hm rest (joinZoom_entries hm h)

theorem processGrid_entries {Q : CoalesceEntry → Prop} {subquery : PhrasematchSubquery}
    {match_opts : MatchOpts} {czooms : List Nat} {i n : Nat} {st : MState}
    {grid : MatchEntry} (h : StateAll (EntriesAll Q) st)
    (hg : Q (gridToCoalesceEntry grid subquery match_opts)) :
    StateAll (EntriesAll Q) (processGrid subquery match_opts czooms i n st grid) := by
  have hj : ∀ e ∈ ((czooms.foldl (joinZoom st.coalesced subquery.zoom)
      ⟨[gridToCoalesceEntry grid subquery match_opts],
        (gridToCoalesceEntry grid subquery match_opts).mask,
        (gridToCoalesceEntry grid subquery match_opts).grid_entry.relev, 0, 0⟩)).entries,
      Q e := by
    apply foldl_joinZoom_entries h.2
    intro e he
    rw [List.mem_singleton.mp he]
    exact hg
  simp only [processGrid]
  split <;> repeat' split
  all_goals first
    | exact ⟨h.1, h.2⟩
    | exact ⟨h.1, mapAppend_all h.2 hj⟩
    | (refine ⟨fun c hc => ?_, h.2⟩
       rcases List.mem_append.mp hc with h1 | h1
       · exact h.1 c h1
       · rw [List.mem_singleton.mp h1]
         exact hj)

theorem foldl_processGrid_entries {Q : CoalesceEntry → Prop}
    {subquery : PhrasematchSubquery} {match_opts : MatchOpts} {czooms : List Nat}
    {i n : Nat} :
    ∀ (grids : List MatchEntry), (∀ g ∈ grids, Q (gridToCoalesceEntry g subquery match_opts)) →
      ∀ {st : MState}, StateAll (EntriesAll Q) st →
      StateAll (EntriesAll Q) (grids.foldl (processGrid subquery match_opts czooms i n) st)
  | [], _, _, h => h
  | g :: rest, hg, _, h =>
    foldl_processGrid_entries rest (fun x hx => hg x (List.mem_cons_of_mem g hx))
      (processGrid_entries h (hg g (List.mem_cons_self g rest)))

theorem multiGo_entries {Q : CoalesceEntry → Prop}
    (stackSorted : List PhrasematchSubquery) (match_opts : MatchOpts) (n : Nat) :
    ∀ (i : Nat) (rest : List PhrasematchSubquery),
      (∀ sq ∈ rest, ∀ g ∈ sq.store.take 100000, Q (gridToCoalesceEntry g sq match_opts)) →
      ∀ {st : MState}, StateAll (EntriesAll Q) st →
      StateAll (EntriesAll Q) (multiGo stackSorted match_opts n i rest st)
  | _, [], _, _, h => h
  | i, sq :: rest, hq, _, h =>
    multiGo_entries stackSorted match_opts n (i + 1) rest
      (fun x hx => hq x (List.mem_cons_of_mem sq hx))
      (foldl_processGrid_entries _ (hq sq (List.mem_cons_self sq rest)) h)

theorem coalesceMulti_entries {Q : CoalesceEntry → Prop}
    {order : List (Nat × Nat × Nat)} {stack : List PhrasematchSubquery}
    {match_opts : MatchOpts}
    (hq : ∀ sq ∈ stack, ∀ g ∈ sq.store, Q (gridToCoalesceEntry g sq match_opts)) :
    ∀ c ∈ coalesceMulti order stack match_opts, ∀ e ∈ c.entries, Q e := by
  intro c hc
  simp only [coalesceMulti] at hc
  have hst : StateAll (EntriesAll Q)
      (multiGo (sortLt subKeyLt stack) match_opts (sortLt subKeyLt stack).length 0
        (sortLt subKeyLt stack) ⟨[], [], 0⟩) := by
    apply multiGo_entries
    · intro sq hsq g hg
      exact hq sq (mem_sortLt hsq) g (List.take_subset _ _ hg)
    · exact ⟨fun c hc => absurd hc (List.not_mem_nil c),
        fun p hp => absurd hp (List.not_mem_nil p)⟩
  rcases List.mem_append.mp (mem_sortLt hc) with h1 | h1
  · exact hst.1 c h1
  · simp only [sweepMap] at h1
    obtain ⟨k, _, hcf⟩ := List.mem_flatMap.mp h1
    have hmem := (List.mem_filter.mp hcf).1
    rcases hlk : mapLookup (multiGo (sortLt subKeyLt stack) match_opts
        (sortLt subKeyLt stack).length 0 (sortLt subKeyLt stack) ⟨[], [], 0⟩).coalesced k with
      _ | cs
    · rw [hlk] at hmem
      exact absurd hmem (List.not_mem_nil c)
    · rw [hlk] at hmem
      exact mapLookup_all hst.2 hlk c hmem

theorem singleLoop_entries {Q : CoalesceEntry → Prop} {subquery : PhrasematchSubquery}
    {match_opts : MatchOpts} :
    ∀ (l : List MatchEntry), (∀ g ∈ l, Q (gridToCoalesceEntry g subquery match_opts)) →
      ∀ {st : SingleScan}, (∀ c ∈ st.contexts, ∀ e ∈ c.entries, Q e) →
      ∀ c ∈ coalesceSingleLoop subquery match_opts l st, ∀ e ∈ c.entries, Q e
  | [], _, _, h => h
  | g :: rest, hg, st, h => by
    have hrest : ∀ x ∈ rest, Q (gridToCoalesceEntry x subquery match_opts) :=
      fun x hx => hg x (List.mem_cons_of_mem g hx)
    have hpush : ∀ c ∈ st.contexts ++
        [(⟨[gridToCoalesceEntry g subquery match_opts],
          (gridToCoalesceEntry g subquery match_opts).mask,
          (gridToCoalesceEntry g subquery match_opts).grid_entry.relev⟩ : CoalesceContext)],
        ∀ e ∈ c.entries, Q e := by
      intro c hc
      rcases List.mem_append.mp hc with h1 | h1
      · exact h c h1
      · rw [List.mem_singleton.mp h1]
        intro e he
        rw [List.mem_singleton.mp he]
        exact hg g (List.mem_cons_self g rest)
    rw [coalesceSingleLoop]
    split
    · exact singleLoop_entries rest hrest h
    · split
      · exact singleLoop_entries rest hrest h
      · split
        · exact h
        · split
          · exact h
          · dsimp only
            repeat' split
            all_goals first
              | exact hpush
              | exact singleLoop_entries rest hrest hpush

theorem coalesceSingle_entries {Q : CoalesceEntry → Prop}
    {subquery : PhrasematchSubquery} {match_opts : MatchOpts}
    (hq : ∀ g ∈ subquery.store, Q (gridToCoalesceEntry g subquery match_opts)) :
    ∀ c ∈ coalesceSingle subquery match_opts, ∀ e ∈ c.entries, Q e := by
  intro c hc
  simp only [coalesceSingle] at hc
  have h1 := (dedupByKey_sublist _ _).subset (List.take_subset _ _ hc)
  have h2 := mem_sortLt h1
  exact singleLoop_entries subquery.store hq
    (fun x hx => absurd hx (List.not_mem_nil x)) c h2

theorem tmp_id_pack {idx fid : Nat} (h1 : idx < 128) (h2 : fid < 2 ^ 25) :
    (idx <<< 25 + fid) % 2 ^ 32 = idx <<< 25 ||| fid ∧
      (idx <<< 25 + fid) % 2 ^ 32 < 2 ^ 32 := by
  have h25 : (2 : Nat) ^ 25 = 33554432 := by norm_num
  have h32 : (2 : Nat) ^ 32 = 4294967296 := by norm_num
  have hlt : idx <<< 25 + fid < 2 ^ 32 := by
    rw [Nat.shiftLeft_eq, h25, h32]
    rw [h25] at h2
    nlinarith
  rw [Nat.mod_eq_of_lt hlt]
  refine ⟨?_, hlt⟩
  rw [Nat.shiftLeft_eq, Nat.mul_comm]
  exact Nat.mul_add_lt_is_or h2 idx

/-- C4: provided the data-model bounds hold (every subquery index below
128 and every feature id below two to the 25th, which the spec imposes on
the inputs), every emitted entry's `tmp_id` equals the bitwise-or packing
`(idx << 25) | id` and fits in 32 bits. -/
theorem claim_C4_tmp_id_packing :
    ∀ (order : List (Nat × Nat × Nat)) (stack : List PhrasematchSubquery)
      (match_opts : MatchOpts) (out : List CoalesceContext),
      (∀ sq ∈ stack, sq.idx < 128 ∧ ∀ g ∈ sq.store, g.grid_entry.id < 2 ^ 25) →
      coalesce order stack match_opts = some out →
      ∀ c ∈ out, ∀ e ∈ c.entries,
        e.tmp_id = e.idx <<< 25 ||| e.grid_entry.id ∧ e.tmp_id < 2 ^ 32 := by
  intro order stack match_opts out hb h c hc e he
  have key : ∀ (c2 : CoalesceContext), c2 ∈ out →
      ∀ e2 ∈ c2.entries, e2.idx < 128 ∧ e2.grid_entry.id < 2 ^ 25 ∧
        e2.tmp_id = (e2.idx <<< 25 + e2.grid_entry.id) % 2 ^ 32 := by
    intro c2 hc2 e2 he2
    match stack, h with
    | [subquery], h =>
      rw [coalesce] at h
      have hmem : c2 ∈ finalize (coalesceSingle subquery match_opts) := by
        rw [Option.some.inj h]
        exact hc2
      refine @coalesceSingle_entries
        (fun e2 => e2.idx < 128 ∧ e2.grid_entry.id < 2 ^ 25 ∧
          e2.tmp_id = (e2.idx <<< 25 + e2.grid_entry.id) % 2 ^ 32)
        subquery match_opts ?_ c2 (finalize_mem hmem) e2 he2
      intro g hg
      exact ⟨(hb subquery (List.mem_singleton_self _)).1,
        (hb subquery (List.mem_singleton_self _)).2 g hg, rfl⟩
    | a :: b :: rest, h =>
      rw [coalesce] at h
      · have hmem : c2 ∈ finalize (coalesceMulti order (a :: b :: rest) match_opts) := by
          rw [Option.some.inj h]
          exact hc2
        refine @coalesceMulti_entries
          (fun e2 => e2.idx < 128 ∧ e2.grid_entry.id < 2 ^ 25 ∧
            e2.tmp_id = (e2.idx <<< 25 + e2.grid_entry.id) % 2 ^ 32)
          order (a :: b :: rest) match_opts ?_ c2 (finalize_mem hmem) e2 he2
        intro sq hsq g hg
        exact ⟨(hb sq hsq).1, (hb sq hsq).2 g hg, rfl⟩
      · simp
      · simp
  obtain ⟨hi, hid, htmp⟩ := key c hc e he
  rw [htmp]
  exact tmp_id_pack hi hid

/-- Witness for C4 on the concrete one-subquery stack `sqRepeat`. -/
theorem claim_C4_tmp_id_packing_witness :
    (∀ sq ∈ [sqRepeat], sq.idx < 128 ∧ ∀ g ∈ sq.store, g.grid_entry.id < 2 ^ 25) ∧
      ∃ out, coalesce [] [sqRepeat] demoOpts = some out ∧
        ∀ c ∈ out, ∀ e ∈ c.entries,
          e.tmp_id = e.idx <<< 25 ||| e.grid_entry.id ∧ e.tmp_id < 2 ^ 32 :=
  ⟨by decide!, finalize (coalesceSingle sqRepeat demoOpts), rfl,
    claim_C4_tmp_id_packing [] [sqRepeat] demoOpts _ (by decide!) rfl⟩

theorem ne_nil_of_head? {l : List α} {a : α} (h : l.head? = some a) : l ≠ [] := by
  intro hnil
  rw [hnil] at h
  exact Option.noConfusion h

theorem headD_of_head? {l : List α} {a d : α} (h : l.head? = some a) : l.headD d = a := by
  cases l with
  | nil => exact Option.noConfusion h
  | cons x t => exact Option.some.inj h

theorem headD_mem {l : List α} (h : l ≠ []) (d : α) : l.headD d ∈ l := by
  cases l with
  | nil => exact absurd rfl h
  | cons x t => exact List.mem_cons_self x t

theorem head?_append_single {l : List α} (x : α) (h : l ≠ []) :
    (l ++ [x]).head? = l.head? := by
  cases l with
  | nil => exact absurd rfl h
  | cons a t => rfl

theorem head?_dropLast_append {l : List α} (x : α) (h : 2 ≤ l.length) :
    (l.dropLast ++ [x]).head? = l.head? := by
  match l, h with
  | a :: b :: t, _ => simp

theorem length_dropLast_append {l : List α} (x : α) :
    (l.dropLast ++ [x]).length = max 1 l.length := by
  cases l with
  | nil => simp
  | cons a t =>
    simp only [List.length_append, List.length_dropLast, List.length_cons,
      List.length_nil]
    omega

theorem compatibleZooms_le (stack : List PhrasematchSubquery)
    (subquery : PhrasematchSubquery) :
    ∀ z ∈ compatibleZooms stack subquery, z ≤ subquery.zoom := by
  intro z hz
  have hz2 := (dedupByKey_sublist _ _).subset hz
  obtain ⟨b, _, hfb⟩ := List.mem_filterMap.mp hz2
  by_cases hcond : subquery.idx = b.idx ∨ subquery.zoom < b.zoom
  · rw [if_pos hcond] at hfb
    exact Option.noConfusion hfb
  · rw [if_neg hcond] at hfb
    rw [← Option.some.inj hfb]
    push_neg at hcond
    exact hcond.2

theorem joinEntry_lead {e0 : CoalesceEntry} {st : JoinState} {pe : CoalesceEntry}
    (h : LeadInv e0 st) (hpe : pe.zoom ≤ e0.zoom ∧ pe.mask ≠ 0) :
    LeadInv e0 (joinEntry st pe) := by
  obtain ⟨hhead, hall, hlen⟩ := h
  rw [joinEntry]
  split
  · rename_i hc
    obtain ⟨hmask, -⟩ := hc
    have h2 : 2 ≤ st.entries.length := hlen (by rw [← hmask]; exact hpe.2)
    refine ⟨?_, ?_, ?_⟩
    · rw [head?_dropLast_append pe h2]
      exact hhead
    · intro e he
      rcases List.mem_append.mp he with h1 | h1
      · exact hall e ((List.dropLast_sublist _).subset h1)
      · rw [List.mem_singleton.mp h1]
        exact hpe
    · intro _
      rw [length_dropLast_append]
      omega
  · split
    · have hne : st.entries ≠ [] := ne_nil_of_head? hhead
      refine ⟨?_, ?_, ?_⟩
      · rw [head?_append_single pe hne]
        exact hhead
      · intro e he
        rcases List.mem_append.mp he with h1 | h1
        · exact hall e h1
        · rw [List.mem_singleton.mp h1]
          exact hpe
      · intro _
        rw [List.length_append]
        have : 1 ≤ st.entries.length := List.length_pos.mpr hne
        simp
        omega
    · exact ⟨hhead, hall, hlen⟩

theorem foldl_joinEntry_lead {e0 : CoalesceEntry} :
    ∀ (l : List CoalesceEntry), (∀ pe ∈ l, pe.zoom ≤ e0.zoom ∧ pe.mask ≠ 0) →
      ∀ {st : JoinState}, LeadInv e0 st → LeadInv e0 (l.foldl joinEntry st)
  | [], _, _, h => h
  | pe :: rest, hl, _, h =>
    foldl_joinEntry_lead rest (fun x hx => hl x (List.mem_cons_of_mem pe hx))
      (joinEntry_lead h (hl pe (List.mem_cons_self pe rest)))

theorem foldl_ctxs_lead {e0 : CoalesceEntry} :
    ∀ (cs : List CoalesceContext), (∀ c ∈ cs, ∀ pe ∈ c.entries, pe.zoom ≤ e0.zoom ∧ pe.mask ≠ 0) →
      ∀ {st : JoinState}, LeadInv e0 st →
      LeadInv e0 (cs.foldl (fun s pc => pc.entries.foldl joinEntry s) st)
  | [], _, _, h => h
  | pc :: rest, hcs, _, h =>
    foldl_ctxs_lead rest (fun c hc => hcs c (List.mem_cons_of_mem pc hc))
      (foldl_joinEntry_lead pc.entries (hcs pc (List.mem_cons_self pc rest)) h)

theorem joinZoom_lead {e0 : CoalesceEntry} {m : CMap} {z : Nat} {st : JoinState}
    {oz : Nat} (hm : MapZoom m) (hoz : oz ≤ e0.zoom) (h : LeadInv e0 st) :
    LeadInv e0 (joinZoom m z st oz) := by
  rw [joinZoom]
  split
  · exact h
  · rename_i cs heq
    refine foldl_ctxs_lead cs ?_ ⟨h.1, h.2.1, fun hne => absurd rfl hne⟩
    intro c hc pe hpe
    have hmk := hm _ (mapLookup_mem heq) c hc
    exact ⟨Nat.le_trans (hmk.2.2 pe hpe).2 hoz, (hmk.2.2 pe hpe).1⟩

theorem foldl_joinZoom_lead {e0 : CoalesceEntry} {m : CMap} {z : Nat} (hm : MapZoom m) :
    ∀ (zs : List Nat), (∀ oz ∈ zs, oz ≤ e0.zoom) → ∀ {st : JoinState}, LeadInv e0 st →
      LeadInv e0 (zs.foldl (joinZoom m z) st)
  | [], _, _, h => h
  | oz :: rest, hzs, _, h =>
    foldl_joinZoom_lead hm rest (fun x hx => hzs x (List.mem_cons_of_mem oz hx))
      (joinZoom_lead hm (hzs oz (List.mem_cons_self oz rest)) h)

theorem mapAppend_zoom :
    ∀ {m : CMap} {k : Nat × Nat × Nat} {c : CoalesceContext}, MapZoom m →
      (c.entries ≠ [] ∧ (leadE c).zoom = k.1 ∧
        ∀ e ∈ c.entries, e.mask ≠ 0 ∧ e.zoom ≤ k.1) →
      MapZoom (mapAppend m k c)
  | [], k, c, _, hc => by
    intro p hp c2 hc2
    rw [mapAppend] at hp
    rw [List.mem_singleton.mp hp] at hc2 ⊢
    rw [List.mem_singleton.mp hc2]
    exact hc
  | (k2, v) :: rest, k, c, hm, hc => by
    intro p hp c2 hc2
    rw [mapAppend] at hp
    split at hp
    · rename_i heq
      rcases List.mem_cons.mp hp with h1 | h1
      · subst h1
        rcases List.mem_append.mp hc2 with h2 | h2
        · exact hm (k2, v) (List.mem_cons_self _ _) c2 h2
        · rw [List.mem_singleton.mp h2]
          rw [heq]
          exact hc
      · exact hm p (List.mem_cons_of_mem _ h1) c2 hc2
    · rcases List.mem_cons.mp hp with h1 | h1
      · subst h1
        exact hm (k2, v) (List.mem_cons_self _ _) c2 hc2
      · exact mapAppend_zoom (fun q hq => hm q (List.mem_cons_of_mem _ hq)) hc p h1 c2 hc2

theorem processGrid_zoom {subquery : PhrasematchSubquery} {match_opts : MatchOpts}
    {czooms : List Nat} {i n : Nat} {st : MState} {grid : MatchEntry}
    (hsqm : subquery.mask ≠ 0) (hcz : ∀ z ∈ czooms, z ≤ subquery.zoom)
    (h : StateZoom st) :
    StateZoom (processGrid subquery match_opts czooms i n st grid) := by
  have hj : LeadInv (gridToCoalesceEntry grid subquery match_opts)
      ((czooms.foldl (joinZoom st.coalesced subquery.zoom)
        ⟨[gridToCoalesceEntry grid subquery match_opts],
          (gridToCoalesceEntry grid subquery match_opts).mask,
          (gridToCoalesceEntry grid subquery match_opts).grid_entry.relev, 0, 0⟩)) := by
    apply foldl_joinZoom_lead h.2 czooms hcz
    refine ⟨rfl, ?_, fun hne => absurd rfl hne⟩
    intro e he
    rw [List.mem_singleton.mp he]
    exact ⟨Nat.le_refl _, hsqm⟩
  have hnewdeep : ∀ (m : Nat) (r : ℚ), HeadDeepest
      ⟨(czooms.foldl (joinZoom st.coalesced subquery.zoom)
        ⟨[gridToCoalesceEntry grid subquery match_opts],
          (gridToCoalesceEntry grid subquery match_opts).mask,
          (gridToCoalesceEntry grid subquery match_opts).grid_entry.relev, 0, 0⟩).entries,
        m, r⟩ := by
    intro m r
    refine ⟨ne_nil_of_head? hj.1, ?_⟩
    intro e he
    have hlead : leadE ⟨(czooms.foldl (joinZoom st.coalesced subquery.zoom)
        ⟨[gridToCoalesceEntry grid subquery match_opts],
          (gridToCoalesceEntry grid subquery match_opts).mask,
          (gridToCoalesceEntry grid subquery match_opts).grid_entry.relev, 0, 0⟩).entries,
        m, r⟩ = gridToCoalesceEntry grid subquery match_opts := headD_of_head? hj.1
    rw [hlead]
    exact (hj.2.1 e he).1
  have hnewmap : ∀ (m : Nat) (r : ℚ),
      (⟨(czooms.foldl (joinZoom st.coalesced subquery.zoom)
        ⟨[gridToCoalesceEntry grid subquery match_opts],
          (gridToCoalesceEntry grid subquery match_opts).mask,
          (gridToCoalesceEntry grid subquery match_opts).grid_entry.relev, 0, 0⟩).entries,
        m, r⟩ : CoalesceContext).entries ≠ [] ∧
      (leadE ⟨(czooms.foldl (joinZoom st.coalesced subquery.zoom)
        ⟨[gridToCoalesceEntry grid subquery match_opts],
          (gridToCoalesceEntry grid subquery match_opts).mask,
          (gridToCoalesceEntry grid subquery match_opts).grid_entry.relev, 0, 0⟩).entries,
        m, r⟩).zoom = (subquery.zoom, grid.grid_entry.x, grid.grid_entry.y).1 ∧
      ∀ e ∈ (⟨(czooms.foldl (joinZoom st.coalesced subquery.zoom)
        ⟨[gridToCoalesceEntry grid subquery match_opts],
          (gridToCoalesceEntry grid subquery match_opts).mask,
          (gridToCoalesceEntry grid subquery match_opts).grid_entry.relev, 0, 0⟩).entries,
        m, r⟩ : CoalesceContext).entries, e.mask ≠ 0 ∧
        e.zoom ≤ (subquery.zoom, grid.grid_entry.x, grid.grid_entry.y).1 := by
    intro m r
    refine ⟨ne_nil_of_head? hj.1, ?_, ?_⟩
    · simp only [leadE]
      rw [headD_of_head? hj.1]
      rfl
    · intro e he
      exact ⟨(hj.2.1 e he).2, (hj.2.1 e he).1⟩
  simp only [processGrid]
  split <;> repeat' split
  all_goals first
    | exact ⟨h.1, h.2⟩
    | exact ⟨h.1, mapAppend_zoom h.2 (hnewmap _ _)⟩
    | (refine ⟨fun c hc => ?_, h.2⟩
       rcases List.mem_append.mp hc with h1 | h1
       · exact h.1 c h1
       · rw [List.mem_singleton.mp h1]
         exact hnewdeep _ _)

theorem foldl_processGrid_zoom {subquery : PhrasematchSubquery} {match_opts : MatchOpts}
    {czooms : List Nat} {i n : Nat} (hsqm : subquery.mask ≠ 0)
    (hcz : ∀ z ∈ czooms, z ≤ subquery.zoom) :
    ∀ (grids : List MatchEntry) {st : MState}, StateZoom st →
      StateZoom (grids.foldl (processGrid subquery match_opts czooms i n) st)
  | [], _, h => h
  | _ :: rest, _, h =>
    foldl_processGrid_zoom hsqm hcz rest (processGrid_zoom hsqm hcz h)

theorem multiGo_zoom (stackSorted : List PhrasematchSubquery) (match_opts : MatchOpts)
    (n : Nat) :
    ∀ (i : Nat) (rest : List PhrasematchSubquery), (∀ sq ∈ rest, sq.mask ≠ 0) →
      ∀ {st : MState}, StateZoom st →
      StateZoom (multiGo stackSorted match_opts n i rest st)
  | _, [], _, _, h => h
  | i, sq :: rest, hmask, _, h =>
    multiGo_zoom stackSorted match_opts n (i + 1) rest
      (fun x hx => hmask x (List.mem_cons_of_mem sq hx))
      (foldl_processGrid_zoom (hmask sq (List.mem_cons_self sq rest))
        (compatibleZooms_le stackSorted sq) _ h)

/-- C7: the claim fails on the code: a parent entry with mask 0 and
positive relevance can replace the lead entry itself (the replace branch
fires with `prev_mask = 0` before any parent has been appended), after
which entries from deeper zooms may be appended behind a shallower lead; on
`stackLead` the emitted context has lead zoom 3 but contains a zoom-4
entry, and its lead is not the current subquery's lifted entry. -/
theorem claim_C7_counterexample :
    ∃ c ∈ coalesceMulti ordLead stackLead demoOpts, ∃ e ∈ c.entries,
      ¬ e.zoom ≤ (leadE c).zoom := by decide!

/-- C7 (amended): provided every subquery mask is nonzero (a mask marks the
query tokens the phrase covers, so a coverage-free phrase is degenerate),
every context of the multi-phrase result is nonempty, its lead entry is a
lifted grid entry of some stack subquery at that subquery's own zoom, and
every other entry comes from a zoom at most the lead entry's zoom. -/
theorem claim_C7_lead_entry_deepest :
    ∀ (order : List (Nat × Nat × Nat)) (stack : List PhrasematchSubquery)
      (match_opts : MatchOpts), (∀ sq ∈ stack, sq.mask ≠ 0) →
      ∀ c ∈ coalesceMulti order stack match_opts,
        c.entries ≠ [] ∧
        (∃ sq ∈ stack, ∃ g ∈ sq.store,
          leadE c = gridToCoalesceEntry g sq match_opts ∧ sq.zoom = (leadE c).zoom) ∧
        ∀ e ∈ c.entries, e.zoom ≤ (leadE c).zoom := by
  intro order stack match_opts hmask c hc
  have hmain : c.entries ≠ [] ∧ ∀ e ∈ c.entries, e.zoom ≤ (leadE c).zoom := by
    have hc2 := hc
    simp only [coalesceMulti] at hc2
    have hst : StateZoom
        (multiGo (sortLt subKeyLt stack) match_opts (sortLt subKeyLt stack).length 0
          (sortLt subKeyLt stack) ⟨[], [], 0⟩) := by
      apply multiGo_zoom
      · intro sq hsq
        exact hmask sq (mem_sortLt hsq)
      · exact ⟨fun c hc => absurd hc (List.not_mem_nil c),
          fun p hp => absurd hp (List.not_mem_nil p)⟩
    rcases List.mem_append.mp (mem_sortLt hc2) with h1 | h1
    · exact hst.1 c h1
    · simp only [sweepMap] at h1
      obtain ⟨k, _, hcf⟩ := List.mem_flatMap.mp h1
      have hmem := (List.mem_filter.mp hcf).1
      rcases hlk : mapLookup (multiGo (sortLt subKeyLt stack) match_opts
          (sortLt subKeyLt stack).length 0 (sortLt subKeyLt stack) ⟨[], [], 0⟩).coalesced k with
        _ | cs
      · rw [hlk] at hmem
        exact absurd hmem (List.not_mem_nil c)
      · rw [hlk] at hmem
        have hk := hst.2 _ (mapLookup_mem hlk) c hmem
        refine ⟨hk.1, ?_⟩
        intro e he
        rw [hk.2.1]
        exact (hk.2.2 e he).2
  refine ⟨hmain.1, ?_, hmain.2⟩
  have hprov := @coalesceMulti_entries
    (fun e => ∃ sq ∈ stack, ∃ g ∈ sq.store, e = gridToCoalesceEntry g sq match_opts)
    order stack match_opts
    (fun sq hsq g hg => ⟨sq, hsq, g, hg, rfl⟩) c hc (leadE c) (headD_mem hmain.1 noEntry)
  obtain ⟨sq, hsq, g, hg, heq⟩ := hprov
  exact ⟨sq, hsq, g, hg, heq, by rw [heq]; rfl⟩

/-- Witness for the amended C7 on a concrete stack with nonzero masks. -/
theorem claim_C7_lead_entry_deepest_witness :
    (∀ sq ∈ stackTie, sq.mask ≠ 0) ∧
      ∀ c ∈ coalesceMulti ordTieA stackTie demoOpts,
        c.entries ≠ [] ∧
        (∃ sq ∈ stackTie, ∃ g ∈ sq.store,
          leadE c = gridToCoalesceEntry g sq demoOpts ∧ sq.zoom = (leadE c).zoom) ∧
        ∀ e ∈ c.entries, e.zoom ≤ (leadE c).zoom :=
  ⟨by decide, claim_C7_lead_entry_deepest ordTieA stackTie demoOpts (by decide)⟩

theorem bsLoop_bounds (coords : List Coord) (val : Nat) :
    ∀ (size base : Nat), 1 ≤ size → base + size ≤ coords.length →
      ∃ B, bsLoop coords val base size = some B ∧ base ≤ B ∧ B + 1 ≤ base + size := by
  intro size
  induction size using Nat.strong_induction_on with
  | _ size ih =>
    intro base h1 h2
    rw [bsLoop]
    split
    · rename_i hgt
      have hmid : base + size / 2 < coords.length := by omega
      dsimp only
      rw [List.getElem?_eq_getElem hmid]
      have hrec := ih (size - size / 2) (by omega)
        (if val < (coords.get ⟨base + size / 2, hmid⟩).coord then base else base + size / 2)
        (by omega) (by split <;> omega)
      obtain ⟨B, hB, hB1, hB2⟩ := hrec
      refine ⟨B, ?_, ?_, ?_⟩
      · simp only [List.get_eq_getElem] at hB
        exact hB
      · revert hB1
        split <;> omega
      · revert hB2
        split <;> omega
    · exact ⟨base, rfl, Nat.le_refl _, by omega⟩

/-- C10: for `offset ≤ len` the search terminates with no out-of-bounds
access (the embedding returns `none` on any such access or failed assert,
and here returns `some`), yielding `Ok(i)` with `offset ≤ i < len` or
`Err(j)` with `offset ≤ j ≤ len`; for `offset > len` the entry assertion
fails. -/
theorem claim_C10_search_safety :
    ∀ (coords : List Coord) (val offset : Nat),
      (offset ≤ coords.length →
        ∃ r, bboxBinarySearch coords val offset = some r ∧
          (∀ i, r = Except.ok i → offset ≤ i ∧ i < coords.length) ∧
          (∀ j, r = Except.error j → offset ≤ j ∧ j ≤ coords.length)) ∧
      (coords.length < offset → bboxBinarySearch coords val offset = none) := by
  intro coords val offset
  constructor
  · intro hoff
    rw [bboxBinarySearch]
    rw [if_neg (Nat.not_lt.mpr hoff)]
    split
    · rename_i hsz
      refine ⟨Except.error offset, rfl, ?_, ?_⟩
      · intro i hi
        exact absurd hi (by intro hx; exact Except.noConfusion hx)
      · intro j hj
        rw [← Except.error.inj hj]
        exact ⟨Nat.le_refl _, hoff⟩
    · rename_i hsz
      obtain ⟨B, hB, hB1, hB2⟩ := bsLoop_bounds coords val (coords.length - offset) offset
        (by omega) (by omega)
      rw [hB]
      have hBlt : B < coords.length := by omega
      dsimp only
      rw [List.getElem?_eq_getElem hBlt]
      dsimp only
      by_cases hv : coords[B].coord = val
      · rw [if_pos hv]
        refine ⟨Except.ok B, rfl, ?_, ?_⟩
        · intro i hi
          rw [← Except.ok.inj hi]
          exact ⟨hB1, hBlt⟩
        · intro j hj
          exact absurd hj (by intro hx; exact Except.noConfusion hx)
      · rw [if_neg hv]
        refine ⟨_, rfl, ?_, ?_⟩
        · intro i hi
          exact absurd hi (by intro hx; exact Except.noConfusion hx)
        · intro j hj
          rw [← Except.error.inj hj]
          constructor
          · exact Nat.le_trans hB1 (Nat.le_add_right _ _)
          · split <;> omega
  · intro hoff
    rw [bboxBinarySearch]
    rw [if_pos hoff]

/-- Witness for C10 at a concrete vector and offset. -/
theorem claim_C10_search_safety_witness :
    (2 ≤ demoCoords.length) ∧
      ∃ r, bboxBinarySearch demoCoords 3 2 = some r ∧
        (∀ i, r = Except.ok i → 2 ≤ i ∧ i < demoCoords.length) ∧
        (∀ j, r = Except.error j → 2 ≤ j ∧ j ≤ demoCoords.length) :=
  ⟨by decide, (claim_C10_search_safety demoCoords 3 2).1 (by decide)⟩

theorem sorted_mono {coords : List Coord} (h : CoordSorted coords) {i j : Nat}
    (hij : i < j) (hj : j < coords.length) :
    (coords.get ⟨i, Nat.lt_trans hij hj⟩).coord < (coords.get ⟨j, hj⟩).coord :=
  List.pairwise_iff_get.mp h ⟨i, Nat.lt_trans hij hj⟩ ⟨j, hj⟩ hij

theorem countP_cons_pos {p : α → Bool} {a : α} (l : List α) (h : p a = true) :
    (a :: l).countP p = l.countP p + 1 := by
  simp [List.countP_cons, h]

theorem countP_cons_neg {p : α → Bool} {a : α} (l : List α) (h : p a = false) :
    (a :: l).countP p = l.countP p := by
  simp [List.countP_cons, h]

theorem sorted_lt_iff {coords : List Coord} (val : Nat) (h : CoordSorted coords) :
    ∀ (i : Nat) (hi : i < coords.length),
      ((coords.get ⟨i, hi⟩).coord < val ↔ i < coordLowerCount coords val) := by
  induction coords with
  | nil =>
    intro i hi
    exact absurd hi (by simp)
  | cons c rest ih =>
    have hp := List.pairwise_cons.mp h
    intro i hi
    by_cases hc : c.coord < val
    · rw [coordLowerCount, countP_cons_pos rest (by simpa using hc)]
      match i with
      | 0 =>
        simp only [List.get]
        constructor
        · intro _
          omega
        · intro _
          exact hc
      | Nat.succ i2 =>
        have hchar := ih hp.2 i2 (by simpa using hi)
        rw [coordLowerCount] at hchar
        simp only [List.get]
        constructor
        · intro hx
          have := hchar.mp hx
          omega
        · intro hx
          exact hchar.mpr (by omega)
    · rw [coordLowerCount, countP_cons_neg rest (by simpa using hc)]
      have hz : rest.countP (fun c2 => decide (c2.coord < val)) = 0 := by
        apply List.countP_eq_zero.mpr
        intro b hb
        have hcb := hp.1 b hb
        simp only [decide_eq_true_eq]
        omega
      rw [hz]
      match i with
      | 0 =>
        simp only [List.get]
        constructor
        · intro hx
          exact absurd hx hc
        · intro hx
          exact absurd hx (by omega)
      | Nat.succ i2 =>
        simp only [List.get]
        constructor
        · intro hx
          have hmem := List.get_mem rest i2 (by simpa using hi)
          have hcb := hp.1 _ hmem
          omega
        · intro hx
          exact absurd hx (by omega)

theorem bsLoop_sorted {coords : List Coord} {val : Nat} (hs : CoordSorted coords)
    (offset : Nat) :
    ∀ (size base : Nat), 1 ≤ size → base + size ≤ coords.length → offset ≤ base →
      ((∃ hb : base < coords.length, (coords.get ⟨base, hb⟩).coord ≤ val) ∨ base = offset) →
      (∀ (j : Nat) (hj : j < coords.length), base + size ≤ j →
        val < (coords.get ⟨j, hj⟩).coord) →
      ∃ B, ∃ hB : B < coords.length, bsLoop coords val base size = some B ∧
        offset ≤ B ∧ B + 1 ≤ base + size ∧
        ((coords.get ⟨B, hB⟩).coord ≤ val ∨ B = offset) ∧
        (∀ (j : Nat) (hj : j < coords.length), B + 1 ≤ j →
          val < (coords.get ⟨j, hj⟩).coord) := by
  intro size
  induction size using Nat.strong_induction_on with
  | _ size ih =>
    intro base h1 h2 hoff inv1 inv2
    rw [bsLoop]
    split
    · rename_i hgt
      have hmid : base + size / 2 < coords.length := by omega
      dsimp only
      rw [List.getElem?_eq_getElem hmid]
      dsimp only
      have hgetmid : coords[base + size / 2] = coords.get ⟨base + size / 2, hmid⟩ := rfl
      by_cases hv : val < (coords.get ⟨base + size / 2, hmid⟩).coord
      · rw [hgetmid, if_pos hv]
        have inv2b : ∀ (j : Nat) (hj : j < coords.length), base + (size - size / 2) ≤ j →
            val < (coords.get ⟨j, hj⟩).coord := by
          intro j hj hge
          rcases Nat.eq_or_lt_of_le (show base + size / 2 ≤ j by omega) with heq | hlt
          · have : (⟨base + size / 2, hmid⟩ : Fin coords.length) = ⟨j, hj⟩ := by
              apply Fin.ext
              exact heq
            rw [← this]
            exact hv
          · exact Nat.lt_trans hv (sorted_mono hs hlt hj)
        obtain ⟨B, hB, hloop, hb1, hb2, hb3, hb4⟩ :=
          ih (size - size / 2) (by omega) base (by omega) (by omega) hoff inv1 inv2b
        exact ⟨B, hB, hloop, hb1, by omega, hb3, hb4⟩
      · rw [hgetmid, if_neg hv]
        have inv1b : (∃ hb : base + size / 2 < coords.length,
            (coords.get ⟨base + size / 2, hb⟩).coord ≤ val) ∨ base + size / 2 = offset :=
          Or.inl ⟨hmid, Nat.le_of_not_lt hv⟩
        have inv2b : ∀ (j : Nat) (hj : j < coords.length),
            base + size / 2 + (size - size / 2) ≤ j → val < (coords.get ⟨j, hj⟩).coord := by
          intro j hj hge
          exact inv2 j hj (by omega)
        obtain ⟨B, hB, hloop, hb1, hb2, hb3, hb4⟩ :=
          ih (size - size / 2) (by omega) (base + size / 2) (by omega) (by omega)
            (by omega) inv1b inv2b
        exact ⟨B, hB, hloop, hb1, by omega, hb3, hb4⟩
    · rename_i hle
      have hB : base < coords.length := by omega
      refine ⟨base, hB, rfl, hoff, by omega, ?_, ?_⟩
      · rcases inv1 with ⟨hb, hle2⟩ | heq
        · exact Or.inl hle2
        · exact Or.inr heq
      · intro j hj hge
        exact inv2 j hj (by omega)

theorem bboxBinarySearch_pos {coords : List Coord} (val offset : Nat)
    (hs : CoordSorted coords) (hoff : offset ≤ coords.length) :
    ∃ r, bboxBinarySearch coords val offset = some r ∧
      exceptPos r = max offset (coordLowerCount coords val) := by
  have hcnt_le : coordLowerCount coords val ≤ coords.length := List.countP_le_length _
  rw [bboxBinarySearch, if_neg (Nat.not_lt.mpr hoff)]
  split
  · rename_i hsz
    refine ⟨_, rfl, ?_⟩
    rw [exceptPos]
    omega
  · rename_i hsz
    obtain ⟨B, hB, hloop, hb1, hb2, hb3, hb4⟩ :=
      bsLoop_sorted hs offset (coords.length - offset) offset (by omega) (by omega)
        (Nat.le_refl _) (Or.inr rfl)
        (fun j hj hge => absurd hj (by omega))
    rw [hloop]
    dsimp only
    rw [List.getElem?_eq_getElem hB]
    dsimp only
    have hgetB : coords[B] = coords.get ⟨B, hB⟩ := rfl
    by_cases hv : (coords.get ⟨B, hB⟩).coord = val
    · rw [hgetB, if_pos hv]
      refine ⟨_, rfl, ?_⟩
      rw [exceptPos]
      have h1 : coordLowerCount coords val ≤ B := by
        by_contra hlt
        push_neg at hlt
        have := (sorted_lt_iff val hs B hB).mpr hlt
        omega
      have h2 : B ≤ coordLowerCount coords val := by
        by_contra hlt
        push_neg at hlt
        have hcl : coordLowerCount coords val < coords.length := Nat.lt_trans hlt hB
        have hmono := sorted_mono hs hlt hB
        have := (sorted_lt_iff val hs _ hcl).mp (by omega)
        omega
      omega
    · rw [hgetB, if_neg hv]
      by_cases hlt : (coords.get ⟨B, hB⟩).coord < val
      · rw [if_pos hlt]
        refine ⟨_, rfl, ?_⟩
        rw [exceptPos]
        have h1 : B < coordLowerCount coords val := (sorted_lt_iff val hs B hB).mp hlt
        have h2 : coordLowerCount coords val ≤ B + 1 := by
          by_contra hgt
          push_neg at hgt
          have hcl : B + 1 < coords.length := by omega
          have hx := (sorted_lt_iff val hs (B + 1) hcl).mpr hgt
          have hy := hb4 (B + 1) hcl (Nat.le_refl _)
          omega
        omega
      · rw [if_neg hlt]
        refine ⟨_, rfl, ?_⟩
        rw [exceptPos]
        have hBoff : B = offset := by
          rcases hb3 with hle | heq
          · omega
          · exact heq
        have h1 : coordLowerCount coords val ≤ offset := by
          by_contra hgt
          push_neg at hgt
          have hcl : offset < coords.length := by omega
          have hx := (sorted_lt_iff val hs offset hcl).mpr hgt
          have : (⟨offset, hcl⟩ : Fin coords.length) = ⟨B, hB⟩ := by
            apply Fin.ext
            exact hBoff.symm
          rw [this] at hx
          omega
        omega

theorem coordLowerCount_mono (coords : List Coord) {lo hi : Nat} (h : lo ≤ hi) :
    coordLowerCount coords lo ≤ coordLowerCount coords hi := by
  apply List.countP_mono_left
  intro c _ hc
  simp only [decide_eq_true_eq] at hc ⊢
  omega

theorem range'_mapM_get (coords : List Coord) :
    ∀ (b a : Nat), a + b ≤ coords.length →
      (List.range' a b).mapM (fun i => coords[i]?) = some ((coords.drop a).take b)
  | 0, a, _ => rfl
  | b + 1, a, h => by
    have ha : a < coords.length := by omega
    rw [List.range'_succ]
    rw [List.mapM_cons]
    rw [List.getElem?_eq_getElem ha]
    rw [range'_mapM_get coords b (a + 1) (by omega)]
    rw [List.drop_eq_getElem_cons ha]
    rfl

theorem sorted_slice_filter {coords : List Coord} (hs : CoordSorted coords)
    {lo hi : Nat} (hlohi : lo ≤ hi) :
    (coords.drop (coordLowerCount coords lo)).take
        (coordLowerCount coords hi - coordLowerCount coords lo) =
      coords.filter (fun c => decide (lo ≤ c.coord) && decide (c.coord < hi)) := by
  induction coords with
  | nil => simp
  | cons c rest ih =>
    have hp := List.pairwise_cons.mp hs
    by_cases hclo : c.coord < lo
    · have hchi : c.coord < hi := by omega
      have hlo1 : coordLowerCount (c :: rest) lo = coordLowerCount rest lo + 1 := by
        rw [coordLowerCount, coordLowerCount]
        exact countP_cons_pos rest (by simpa using hclo)
      have hhi1 : coordLowerCount (c :: rest) hi = coordLowerCount rest hi + 1 := by
        rw [coordLowerCount, coordLowerCount]
        exact countP_cons_pos rest (by simpa using hchi)
      rw [hlo1, hhi1]
      have hstep : (c :: rest).drop (coordLowerCount rest lo + 1) =
          rest.drop (coordLowerCount rest lo) := rfl
      rw [hstep]
      have hfc : (fun c2 => decide (lo ≤ c2.coord) && decide (c2.coord < hi)) c = false := by
        simp only [Bool.and_eq_false_iff, decide_eq_false_iff_not]
        left
        omega
      rw [List.filter_cons_of_neg (by simpa using hfc)]
      have harith : coordLowerCount rest hi + 1 - (coordLowerCount rest lo + 1) =
          coordLowerCount rest hi - coordLowerCount rest lo := by omega
      rw [harith]
      exact ih hp.2
    · have hzlo : coordLowerCount rest lo = 0 := by
        rw [coordLowerCount]
        apply List.countP_eq_zero.mpr
        intro b hb
        have := hp.1 b hb
        simp only [decide_eq_true_eq]
        omega
      have hcnt0 : coordLowerCount (c :: rest) lo = 0 := by
        rw [coordLowerCount]
        rw [countP_cons_neg rest (by simpa using hclo)]
        rw [← coordLowerCount, hzlo]
      rw [hcnt0, List.drop_zero]
      have ihz := ih hp.2
      rw [hzlo, List.drop_zero] at ihz
      by_cases hchi : c.coord < hi
      · have hhi1 : coordLowerCount (c :: rest) hi = coordLowerCount rest hi + 1 := by
          rw [coordLowerCount, coordLowerCount]
          exact countP_cons_pos rest (by simpa using hchi)
        rw [hhi1]
        have hfc : (fun c2 => decide (lo ≤ c2.coord) && decide (c2.coord < hi)) c = true := by
          simp only [Bool.and_eq_true, decide_eq_true_eq]
          omega
        rw [List.filter_cons_of_pos (by simpa using hfc)]
        have harith : coordLowerCount rest hi + 1 - 0 = coordLowerCount rest hi + 1 := by
          omega
        rw [harith, List.take_succ_cons]
        rw [← ihz]
        have harith2 : coordLowerCount rest hi - 0 = coordLowerCount rest hi := by omega
        rw [harith2]
      · have hzhi : coordLowerCount rest hi = 0 := by
          rw [coordLowerCount]
          apply List.countP_eq_zero.mpr
          intro b hb
          have := hp.1 b hb
          simp only [decide_eq_true_eq]
          omega
        have hhi0 : coordLowerCount (c :: rest) hi = 0 := by
          rw [coordLowerCount]
          rw [countP_cons_neg rest (by simpa using hchi)]
          rw [← coordLowerCount, hzhi]
        rw [hhi0]
        have hfc : (fun c2 => decide (lo ≤ c2.coord) && decide (c2.coord < hi)) c = false := by
          simp only [Bool.and_eq_false_iff, decide_eq_false_iff_not]
          right
          omega
        rw [List.filter_cons_of_neg (by simpa using hfc)]
        simp only [Nat.zero_sub, List.take_zero]
        rw [← ihz, hzhi]
        simp

/-- C2: the claim says the filter returns exactly the coords `c` with
`morton(min) ≤ c ≤ morton(max)` and that the upper end is the first index
with coord strictly above the max; but when `morton(max)` is itself stored,
the upper search returns its index (`Ok`), which the `start..end` range
excludes: on the reference vector 0,1,2,3 with bbox `[0,0,1,1]` the coord
3 = morton(1,1) satisfies the claimed interval but is not returned. -/
theorem claim_C2_bbox_filter_counterexample :
    bboxFilter demoCoords demoBbox ≠ some (demoCoords.filter (fun c =>
      decide (interleaveMorton demoBbox.1 demoBbox.2.1 ≤ c.coord) &&
      decide (c.coord ≤ interleaveMorton demoBbox.2.2.1 demoBbox.2.2.2))) := by decide!

/-- C2 (amended): for a strictly ascending coord vector and a bbox with
`morton(min) ≤ morton(max)`, `bbox_filter` returns exactly the coords `c`
with `morton(min) ≤ c < morton(max)` (half-open: a stored coord equal to
`morton(max)` is excluded; when it is absent this coincides with the closed
interval), as the contiguous index range whose lower end is the first index
with `coord ≥ morton(min)` and whose upper end is the first index with
`coord ≥ morton(max)` (or the length if none). -/
theorem claim_C2_bbox_filter_halfopen :
    ∀ (coords : List Coord) (bbox : Nat × Nat × Nat × Nat),
      CoordSorted coords →
      interleaveMorton bbox.1 bbox.2.1 ≤ interleaveMorton bbox.2.2.1 bbox.2.2.2 →
      bboxFilter coords bbox = some (coords.filter (fun c =>
        decide (interleaveMorton bbox.1 bbox.2.1 ≤ c.coord) &&
        decide (c.coord < interleaveMorton bbox.2.2.1 bbox.2.2.2))) ∧
      (∃ r1, bboxBinarySearch coords (interleaveMorton bbox.1 bbox.2.1) 0 = some r1 ∧
        exceptPos r1 = coordLowerCount coords (interleaveMorton bbox.1 bbox.2.1)) ∧
      (∃ r2, bboxBinarySearch coords (interleaveMorton bbox.2.2.1 bbox.2.2.2)
          (coordLowerCount coords (interleaveMorton bbox.1 bbox.2.1)) = some r2 ∧
        exceptPos r2 = coordLowerCount coords (interleaveMorton bbox.2.2.1 bbox.2.2.2)) := by
  intro coords bbox hs hlohi
  have hlo_le : coordLowerCount coords (interleaveMorton bbox.1 bbox.2.1) ≤ coords.length :=
    List.countP_le_length _
  have hhi_le : coordLowerCount coords (interleaveMorton bbox.2.2.1 bbox.2.2.2) ≤
      coords.length := List.countP_le_length _
  have hmono := coordLowerCount_mono coords hlohi
  obtain ⟨r1, hr1, hp1⟩ :=
    bboxBinarySearch_pos (interleaveMorton bbox.1 bbox.2.1) 0 hs (Nat.zero_le _)
  have hpos1 : exceptPos r1 = coordLowerCount coords (interleaveMorton bbox.1 bbox.2.1) := by
    rw [hp1]
    omega
  obtain ⟨r2, hr2, hp2⟩ :=
    bboxBinarySearch_pos (interleaveMorton bbox.2.2.1 bbox.2.2.2) (exceptPos r1) hs
      (by rw [hpos1]; exact hlo_le)
  have hpos2 : exceptPos r2 =
      coordLowerCount coords (interleaveMorton bbox.2.2.1 bbox.2.2.2) := by
    rw [hp2, hpos1]
    omega
  refine ⟨?_, ⟨r1, hr1, hpos1⟩, ⟨r2, by rw [← hpos1]; exact hr2, hpos2⟩⟩
  simp only [bboxFilter]
  rw [hr1]
  dsimp only
  rw [hr2]
  dsimp only
  rw [hpos1, hpos2]
  rw [range'_mapM_get coords _ _ (by omega)]
  rw [sorted_slice_filter hs hlohi]

/-- Witness for the amended C2 at the reference vector and bbox. -/
theorem claim_C2_bbox_filter_halfopen_witness :
    CoordSorted demoCoords ∧
      interleaveMorton demoBbox.1 demoBbox.2.1 ≤
        interleaveMorton demoBbox.2.2.1 demoBbox.2.2.2 ∧
      bboxFilter demoCoords demoBbox = some (demoCoords.filter (fun c =>
        decide (interleaveMorton demoBbox.1 demoBbox.2.1 ≤ c.coord) &&
        decide (c.coord < interleaveMorton demoBbox.2.2.1 demoBbox.2.2.2))) :=
  ⟨by show demoCoords.Pairwise (fun a b => a.coord < b.coord); decide!, by decide!,
    (claim_C2_bbox_filter_halfopen demoCoords demoBbox
      (by show demoCoords.Pairwise (fun a b => a.coord < b.coord); decide!) (by decide!)).1⟩
